import Mathlib

/-!
Verification of the meshql envelope-repository / searcher stack.

This file gives a shallow embedding, in Lean, of the parts of the Rust
sources that the verified properties are about:

* the JSON value model (`serde_json::Value` restricted to the shapes the
  repository stores: null, booleans, integers, strings, arrays, objects;
  `serde_json::Map` is modelled as an association list in insertion order
  with unique keys),
* `chrono::DateTime<Utc>` (modelled as a count of nanoseconds since the
  epoch, with `timestamp_millis` as flooring division),
* the core `Envelope` record,
* `SqliteRepository` (`meshql-sqlite/src/repository.rs`): the `envelopes`
  table is a list of decoded rows in `rowid` (insertion) order; the SQL
  statements for `read` and `list` are embedded by their documented
  semantics (`ORDER BY created_at_ms DESC, rowid DESC LIMIT 1` picks the
  lexicographically largest `(created_at_ms, rowid)` candidate,
  `ROW_NUMBER ... = 1` keeps per-id maxima),
* `MerkqlRepository` (`meshql-merkql/src/repository.rs`): the topic is a
  list of envelopes in offset order; `latest_for_id` uses Rust's
  `Iterator::max_by_key`, which returns the last maximal element,
* `MongoRepository` (`meshql-mongo/src/repository.rs`): the collection is
  a list of documents; the aggregation pipeline of `read` is embedded
  clause by clause (timestamps compared at millisecond precision, the
  precision of `bson::DateTime`),
* the `merkql` matcher and searcher (`matcher.rs`, `searcher.rs`),
* the sqlite query lowering (`meshql-sqlite/src/query.rs`) and searcher,
* the resolver selection of the dynamic schema builder
  (`meshql-graphlette/src/schema_builder.rs`),
* the flat-JSON conversions of `meshql-merksql/src/convert.rs`, including
  the `serde_json` string-escaping serialization of the token list and a
  parser for it (`serde_json::from_str::<Vec<String>>`).

Nondeterministic identifiers (`uuid::Uuid::new_v4`) and the current time
(`Utc::now`) are passed as explicit parameters.
-/

mutual
/-- JSON values as stored and queried by the repositories.  Mirrors
`serde_json::Value`; numbers are integers here (the payloads exercised by
the repository are strings, integers and booleans). -/
inductive JValue where
  | null
  | bool (b : Bool)
  | int (n : Int)
  | str (s : String)
  | arr (xs : JArr)
  | obj (fields : JObj)
deriving DecidableEq
/-- Array of JSON values. -/
inductive JArr where
  | nil
  | cons (hd : JValue) (tl : JArr)
deriving DecidableEq
/-- JSON object: key/value pairs in insertion order (models
`serde_json::Map<String, Value>`; keys are unique in maps produced by
serde). -/
inductive JObj where
  | nil
  | cons (key : String) (val : JValue) (tl : JObj)
deriving DecidableEq
end

namespace JObj

/-- Lookup of a key (models `Map::get`): first pair with that key. -/
def get : JObj → String → Option JValue
  | .nil, _ => none
  | .cons k v t, key => if k = key then some v else get t key

/-- Insert (models `Map::insert`): replace the value at an existing key,
otherwise append the pair. -/
def insert (m : JObj) (key : String) (v : JValue) : JObj :=
  match m with
  | .nil => .cons key v .nil
  | .cons k w t => if k = key then .cons k v t else .cons k w (insert t key v)

/-- Concatenation of two objects (no key collision intended). -/
def append : JObj → JObj → JObj
  | .nil, m => m
  | .cons k v t, m => .cons k v (append t m)

/-- List of keys, in order. -/
def keys : JObj → List String
  | .nil => []
  | .cons k _ t => k :: keys t

/-- List of pairs, in order. -/
def pairs : JObj → List (String × JValue)
  | .nil => []
  | .cons k v t => (k, v) :: pairs t

/-- Conjunction of a boolean predicate over all pairs (models a `for`
loop that returns `false` early). -/
def allPairs (m : JObj) (p : String → JValue → Bool) : Bool :=
  match m with
  | .nil => true
  | .cons k v t => p k v && allPairs t p

/-- Object built from a list of pairs. -/
def ofList : List (String × JValue) → JObj
  | [] => .nil
  | (k, v) :: t => .cons k v (ofList t)

end JObj

/-- Stash: the runtime record type (payloads, searcher arguments and
results).  In the sources it is `serde_json::Map<String, Value>`. -/
abbrev Stash := JObj

/-- Result of `serde_json::Value::as_i64`: the integer when it fits in a
64-bit signed integer. -/
def JValue.asI64 : JValue → Option Int
  | .int n => if -(2 ^ 63) ≤ n ∧ n < 2 ^ 63 then some n else none
  | _ => none

/-- Result of `serde_json::Value::as_str`. -/
def JValue.asStr : JValue → Option String
  | .str s => some s
  | _ => none

/-- Result of `serde_json::Value::as_bool`. -/
def JValue.asBool : JValue → Option Bool
  | .bool b => some b
  | _ => none

/-- `chrono::DateTime<Utc>`: nanoseconds since the Unix epoch. -/
structure DateTimeUtc where
  nanos : Int
deriving DecidableEq

/-- `DateTime::timestamp_millis`: milliseconds since the epoch, flooring
(sub-millisecond parts are dropped; Lean's `Int` division is Euclidean,
which floors for a positive divisor, matching chrono). -/
def DateTimeUtc.ms (d : DateTimeUtc) : Int := d.nanos / 1000000

/-- Millisecond timestamp at exactly a millisecond boundary. -/
def DateTimeUtc.ofMs (m : Int) : DateTimeUtc := ⟨m * 1000000⟩

/-- Bounds of chrono's representable range, in milliseconds (roughly
±262000 years around the epoch).  The exact values are immaterial to the
theorems below, which only assume the timestamps at hand are in range. -/
def chronoMsMax : Int := 8210266876799999

/-- Lower bound of chrono's representable range in milliseconds. -/
def chronoMsMin : Int := -8334601228800000

/-- `Utc.timestamp_millis_opt(ms).single()`: the datetime at a millisecond
timestamp, when representable. -/
def timestampMillisOpt (m : Int) : Option DateTimeUtc :=
  if chronoMsMin ≤ m ∧ m ≤ chronoMsMax then some (DateTimeUtc.ofMs m) else none

/-- The core `Envelope` record (`meshql-core/src/lib.rs`). -/
structure Envelope where
  id : String
  payload : Stash
  created_at : DateTimeUtc
  deleted : Bool
  authorized_tokens : List String
deriving DecidableEq

/-! ## Sqlite repository (`meshql-sqlite/src/repository.rs`)

The `envelopes` table has columns `(id, created_at_ms, deleted,
authorized_tokens, payload)`; `authorized_tokens` and `payload` are stored
as JSON strings and are modelled here already decoded (the claims under
verification do not concern malformed stored JSON).  The table is a list
of rows in `rowid` order; the `rowid` of a row is its position. -/

/-- One decoded row of the `envelopes` table. -/
structure SqlRow where
  id : String
  created_at_ms : Int
  deleted : Bool
  authorized_tokens : List String
  payload : Stash
deriving DecidableEq

/-- `row_to_envelope`: `DateTime::from_timestamp_millis(ms)` yields the
datetime when in range and `unwrap_or_default()` falls back to the epoch
otherwise. -/
def rowToEnvelope (r : SqlRow) : Envelope :=
  { id := r.id
    payload := r.payload
    created_at := (timestampMillisOpt r.created_at_ms).getD ⟨0⟩
    deleted := r.deleted
    authorized_tokens := r.authorized_tokens }

/-- Cutoff used by `SqliteRepository::read`: the given `at`, otherwise
`Utc::now().timestamp_millis() + 1`. -/
def sqliteCutoffMs (at? : Option Int) (nowMs : Int) : Int :=
  match at? with
  | some t => t
  | none => nowMs + 1

/-- Strict lexicographic comparison of `(created_at_ms, rowid)` pairs:
`p` sorts after `q` under `ORDER BY created_at_ms DESC, rowid DESC`. -/
def rowAfter (p q : Nat × SqlRow) : Prop :=
  q.2.created_at_ms < p.2.created_at_ms ∨
    (p.2.created_at_ms = q.2.created_at_ms ∧ q.1 < p.1)

instance (p q : Nat × SqlRow) : Decidable (rowAfter p q) := by
  unfold rowAfter; infer_instance

/-- Candidate rows of `read`'s query: `WHERE id = ? AND created_at_ms <= ?`,
each row paired with its `rowid`. -/
def sqliteCandidates (table : List SqlRow) (id : String) (cutoff : Int) :
    List (Nat × SqlRow) :=
  table.enum.filter fun p => p.2.id == id && decide (p.2.created_at_ms ≤ cutoff)

/-- Reflexive counterpart of `rowAfter`: `q` sorts at or before `p`. -/
def rowLe (q p : Nat × SqlRow) : Prop :=
  q.2.created_at_ms < p.2.created_at_ms ∨
    (q.2.created_at_ms = p.2.created_at_ms ∧ q.1 ≤ p.1)

/-- Step of the max-candidate fold: keep whichever of the accumulator and
the new candidate sorts later. -/
def selectStep (acc : Option (Nat × SqlRow)) (p : Nat × SqlRow) :
    Option (Nat × SqlRow) :=
  match acc with
  | none => some p
  | some q => if rowAfter p q then some p else some q

/-- Result row of `ORDER BY created_at_ms DESC, rowid DESC LIMIT 1`: the
candidate that sorts first, i.e. the lexicographically largest
`(created_at_ms, rowid)`. -/
def selectLatestIdx (cands : List (Nat × SqlRow)) : Option (Nat × SqlRow) :=
  cands.foldl selectStep none

/-- `SqliteRepository::read`: select the latest candidate row; return its
envelope unless it is a tombstone.  The `tokens` argument is unused
(`_tokens` in the source). -/
def sqliteRead (table : List SqlRow) (id : String) (_tokens : List String)
    (at? : Option Int) (nowMs : Int) : Option Envelope :=
  match selectLatestIdx (sqliteCandidates table id (sqliteCutoffMs at? nowMs)) with
  | none => none
  | some (_, r) => if r.deleted then none else some (rowToEnvelope r)

/-- Window predicate of `list`'s query: row `p` has `ROW_NUMBER() OVER
(PARTITION BY id ORDER BY created_at_ms DESC, rowid DESC) = 1`, i.e. no
row with the same id sorts after it. -/
def isLatestOfItsId (table : List SqlRow) (p : Nat × SqlRow) : Bool :=
  table.enum.all fun q => !(q.2.id == p.2.id) || !(decide (rowAfter q p))

/-- `SqliteRepository::list`: latest row per id (`rn = 1`), tombstones
filtered out (`deleted = 0`).  The `tokens` argument is unused. -/
def sqliteList (table : List SqlRow) (_tokens : List String) : List Envelope :=
  (table.enum.filter fun p => isLatestOfItsId table p && !p.2.deleted).map
    fun p => rowToEnvelope p.2

/-- `SqliteRepository::create`: assign `fresh` (the generated UUID) when
the id is empty, overwrite `authorized_tokens` with `tokens`, append one
row, return the resulting envelope. -/
def sqliteCreate (table : List SqlRow) (envelope : Envelope)
    (tokens : List String) (fresh : String) : Envelope × List SqlRow :=
  let env := if envelope.id = "" then { envelope with id := fresh } else envelope
  let env := { env with authorized_tokens := tokens }
  let row : SqlRow :=
    { id := env.id
      created_at_ms := env.created_at.ms
      deleted := env.deleted
      authorized_tokens := env.authorized_tokens
      payload := env.payload }
  (env, table ++ [row])

/-- `SqliteRepository::remove`: read the latest visible version (cutoff
`now + 1`); if absent return `false` and leave the table unchanged,
otherwise append a tombstone (same id and payload, `created_at = now`,
`deleted = true`) through `create` and return `true`. -/
def sqliteRemove (table : List SqlRow) (id : String) (tokens : List String)
    (nowMs : Int) (fresh : String) : Bool × List SqlRow :=
  match sqliteRead table id tokens none nowMs with
  | none => (false, table)
  | some env =>
      let deletedEnv : Envelope :=
        { id := env.id
          payload := env.payload
          created_at := DateTimeUtc.ofMs nowMs
          deleted := true
          authorized_tokens := env.authorized_tokens }
      (true, (sqliteCreate table deletedEnv tokens fresh).2)

/-! ## Merkql repository (`meshql-merkql/src/repository.rs`)

The topic is a list of envelopes in offset (insertion) order; a scan from
the earliest offset yields exactly this list. -/

/-- `Iterator::max_by_key` on `created_at.timestamp_millis()`: Rust
returns the **last** maximal element, so the fold replaces the
accumulator whenever the new key is greater or equal. -/
def maxMsStep (acc : Option Envelope) (e : Envelope) : Option Envelope :=
  match acc with
  | none => some e
  | some a => if a.created_at.ms ≤ e.created_at.ms then some e else some a

/-- Fold realizing `max_by_key` over a whole list. -/
def maxByCreatedAtMs (envelopes : List Envelope) : Option Envelope :=
  envelopes.foldl maxMsStep none

/-- `MerkqlRepository::latest_for_id`: filter by id and

`created_at.timestamp_millis() <= cutoff_ms`, then `max_by_key` on the
millisecond timestamp. -/
def latestForId (envelopes : List Envelope) (id : String) (cutoffMs : Int) :
    Option Envelope :=
  maxByCreatedAtMs
    (envelopes.filter fun e => e.id == id && decide (e.created_at.ms ≤ cutoffMs))

/-- Cutoff used by `MerkqlRepository::read`: `at.timestamp_millis()` when
given, otherwise `now.timestamp_millis() + 1`. -/
def merkqlCutoffMs (at? : Option Int) (nowMs : Int) : Int :=
  match at? with
  | some t => t
  | none => nowMs + 1

/-- `MerkqlRepository::read`: latest version for the id under the cutoff,
filtered to `None` when it is a tombstone.  The `tokens` argument is
unused (`_tokens`). -/
def merkqlRead (envelopes : List Envelope) (id : String)
    (_tokens : List String) (at? : Option Int) (nowMs : Int) : Option Envelope :=
  (latestForId envelopes id (merkqlCutoffMs at? nowMs)).filter fun e => !e.deleted

/-- `MerkqlRepository::create`: write the envelope to the topic exactly as
given (the `tokens` argument is unused, the id is not touched) and return
it. -/
def merkqlCreate (envelopes : List Envelope) (envelope : Envelope)
    (_tokens : List String) : Envelope × List Envelope :=
  (envelope, envelopes ++ [envelope])

/-! ## Mongo repository (`meshql-mongo/src/repository.rs`)

Documents carry the same fields as envelopes; `createdAt` is a
`bson::DateTime`, which has millisecond precision, so all timestamps here
are milliseconds.  The `$match` stage keeps documents with the requested
id, `createdAt <= cutoff` and a non-empty intersection between
`authorizedTokens` and the caller's tokens (`$in`); `$sort createdAt: -1`
with `$limit 1` keeps a document of maximal `createdAt` (ties are not
ordered by the pipeline; the fold below keeps the first maximum). -/

/-- One document of the mongo collection. -/
structure MongoDoc where
  id : String
  createdAtMs : Int
  deleted : Bool
  authorizedTokens : List String
  payload : Stash
deriving DecidableEq

/-- Cutoff of `MongoRepository::read`: the given `at`, otherwise
`Utc::now()` — with no added millisecond. -/
def mongoCutoffMs (at? : Option Int) (nowMs : Int) : Int :=
  match at? with
  | some t => t
  | none => nowMs

/-- `$match` stage of `read`'s pipeline. -/
def mongoMatch (docs : List MongoDoc) (id : String) (tokens : List String)
    (cutoffMs : Int) : List MongoDoc :=
  docs.filter fun d =>
    d.id == id && decide (d.createdAtMs ≤ cutoffMs) &&
      tokens.any fun t => d.authorizedTokens.contains t

/-- Step of the maximal-`createdAt` fold. -/
def mongoMaxStep (acc : Option MongoDoc) (d : MongoDoc) : Option MongoDoc :=
  match acc with
  | none => some d
  | some a => if a.createdAtMs < d.createdAtMs then some d else some a

/-- `$sort {createdAt: -1}` followed by `$limit 1`: a document of maximal
`createdAt`. -/
def mongoFirstByCreatedAt (docs : List MongoDoc) : Option MongoDoc :=
  docs.foldl mongoMaxStep none

/-- `MongoRepository::read`: run the pipeline, then drop the result if it
is a tombstone (`.filter(|e| !e.deleted)`). -/
def mongoRead (docs : List MongoDoc) (id : String) (tokens : List String)
    (at? : Option Int) (nowMs : Int) : Option MongoDoc :=
  (mongoFirstByCreatedAt (mongoMatch docs id tokens (mongoCutoffMs at? nowMs))).filter
    fun d => !d.deleted

/-! ## Compact JSON serialization (`serde_json::to_string`)

`build_where` stringifies non-string values with `to_string`, and
`envelope_to_flat_json` stores the token list double-encoded as a JSON
string.  `serde_json` escapes exactly the quote, the backslash and the
control characters below `0x20` (the latter as `\b`, `\t`, `\n`, `\f`,
`\r` or `\u00XX` with lowercase hex digits), and writes compact output
with no whitespace. -/

/-- Lowercase hexadecimal digit (serde's `\u00XX` escapes). -/
def hexDigitChar (n : Nat) : Char :=
  match n with
  | 0 => '0' | 1 => '1' | 2 => '2' | 3 => '3' | 4 => '4'
  | 5 => '5' | 6 => '6' | 7 => '7' | 8 => '8' | 9 => '9'
  | 10 => 'a' | 11 => 'b' | 12 => 'c' | 13 => 'd' | 14 => 'e'
  | _ => 'f'

/-- Escape one character of a JSON string, as `serde_json` does. -/
def escapeChar (c : Char) : List Char :=
  if c = '"' then ['\\', '"']
  else if c = '\\' then ['\\', '\\']
  else if c = '\x08' then ['\\', 'b']
  else if c = '\t' then ['\\', 't']
  else if c = '\n' then ['\\', 'n']
  else if c = '\x0c' then ['\\', 'f']
  else if c = '\r' then ['\\', 'r']
  else if c.toNat < 0x20 then
    ['\\', 'u', '0', '0', hexDigitChar (c.toNat / 16), hexDigitChar (c.toNat % 16)]
  else [c]

/-- Escaped body of a JSON string. -/
def escapeString (s : String) : List Char := (s.data.map escapeChar).flatten

/-- Quoted and escaped JSON string. -/
def renderString (s : String) : List Char := '"' :: (escapeString s ++ ['"'])

mutual
/-- Compact serialization of a JSON value (`serde_json::to_string`). -/
def JValue.render : JValue → List Char
  | .null => "null".data
  | .bool true => "true".data
  | .bool false => "false".data
  | .int n => (toString n).data
  | .str s => renderString s
  | .arr xs => '[' :: (JArr.renderItems xs ++ [']'])
  | .obj m => '\x7b' :: (JObj.renderItems m ++ ['\x7d'])
/-- Comma-separated array items. -/
def JArr.renderItems : JArr → List Char
  | .nil => []
  | .cons h .nil => h.render
  | .cons h (.cons h2 t) => h.render ++ ',' :: JArr.renderItems (.cons h2 t)
/-- Comma-separated `"key":value` object entries. -/
def JObj.renderItems : JObj → List Char
  | .nil => []
  | .cons k v .nil => renderString k ++ ':' :: v.render
  | .cons k v (.cons k2 v2 t) =>
      renderString k ++ ':' :: v.render ++ ',' :: JObj.renderItems (.cons k2 v2 t)
end

/-- Compact serialization as a `String` (`serde_json::to_string`). -/
def JValue.toStringCompact (v : JValue) : String := ⟨v.render⟩

/-- Serialization of a `Vec<String>` (`serde_json::to_string` on the
token list): `["a","b"]`, no whitespace, elements escaped. -/
def renderItemsAux : List String → List Char
  | [] => []
  | [t] => renderString t
  | t :: t2 :: rest => renderString t ++ ',' :: renderItemsAux (t2 :: rest)

/-- Full serialized string-list. -/
def renderStringList (ts : List String) : String :=
  ⟨'[' :: (renderItemsAux ts ++ [']'])⟩

/-! ## Parsing a JSON string list (`serde_json::from_str::<Vec<String>>`)

`flat_json_to_envelope` decodes the `_tokens` field with `from_str`; the
parser below accepts JSON arrays of strings (with the standard escape
sequences; `\uXXXX` outside the surrogate range — surrogate pairs are not
produced by the serializer above and are rejected here). -/

/-- Value of one hexadecimal digit (both cases accepted, as in JSON). -/
def parseHexDigit (c : Char) : Option Nat :=
  if '0' ≤ c ∧ c ≤ '9' then some (c.toNat - '0'.toNat)
  else if 'a' ≤ c ∧ c ≤ 'f' then some (c.toNat - 'a'.toNat + 10)
  else if 'A' ≤ c ∧ c ≤ 'F' then some (c.toNat - 'A'.toNat + 10)
  else none

/-- Single-character escape sequences of JSON. -/
def escapedChar (e : Char) : Option Char :=
  if e = '"' then some '"'
  else if e = '\\' then some '\\'
  else if e = '/' then some '/'
  else if e = 'b' then some '\x08'
  else if e = 'f' then some '\x0c'
  else if e = 'n' then some '\n'
  else if e = 'r' then some '\r'
  else if e = 't' then some '\t'
  else none

/-- Parse the body of a JSON string after its opening quote; return its
characters and the input after the closing quote.  A `\uXXXX` escape must
denote a non-surrogate scalar (surrogate pairs are not produced by the
serializer above and are rejected); an unterminated or malformed escape,
a raw control character, or a missing closing quote fails. -/
def parseStringBody : List Char → Option (List Char × List Char)
  | [] => none
  | '"' :: rest => some ([], rest)
  | '\\' :: 'u' :: a :: b :: c2 :: d :: rest =>
    (match parseHexDigit a, parseHexDigit b, parseHexDigit c2, parseHexDigit d with
      | some ha, some hb, some hc, some hd =>
        if ha * 4096 + hb * 256 + hc * 16 + hd < 0xD800 ∨
            0xE000 ≤ ha * 4096 + hb * 256 + hc * 16 + hd then
          (parseStringBody rest).map fun p =>
            (Char.ofNat (ha * 4096 + hb * 256 + hc * 16 + hd) :: p.1, p.2)
        else none
      | _, _, _, _ => none)
  | '\\' :: e :: rest =>
    (match escapedChar e with
      | some ch => (parseStringBody rest).map fun p => (ch :: p.1, p.2)
      | none => none)
  | ['\\'] => none
  | c :: rest =>
    if c.toNat < 0x20 then none
    else (parseStringBody rest).map fun p => (c :: p.1, p.2)

/-- Skip JSON whitespace. -/
def skipWs : List Char → List Char
  | [] => []
  | c :: rest =>
    if c = ' ' ∨ c = '\n' ∨ c = '\r' ∨ c = '\t' then skipWs rest else c :: rest

/-- Parse the comma-separated string items of a non-empty JSON array, up
to and including the closing bracket; fuel-indexed (the fuel bounds the
number of items). -/
def parseStringItems : Nat → List Char → Option (List String × List Char)
  | 0, _ => none
  | fuel + 1, cs =>
    match skipWs cs with
    | '"' :: rest =>
      match parseStringBody rest with
      | some (content, rest2) =>
        match skipWs rest2 with
        | ',' :: rest3 =>
          (parseStringItems fuel rest3).map fun p => (⟨content⟩ :: p.1, p.2)
        | ']' :: rest3 => some ([⟨content⟩], rest3)
        | _ => none
      | none => none
    | _ => none

/-- Continuation after the opening bracket (whitespace already skipped):
either the immediate closing bracket of the empty array, or the
comma-separated items. -/
def parseListTail : List Char → Option (List String)
  | ']' :: rest2 => if skipWs rest2 = [] then some [] else none
  | cs =>
    match parseStringItems (cs.length + 1) cs with
    | some (ts, rem) => if skipWs rem = [] then some ts else none
    | none => none

/-- Parse a JSON array of strings, requiring the whole input consumed
(`serde_json::from_str::<Vec<String>>`). -/
def parseStringList (s : String) : Option (List String) :=
  match skipWs s.data with
  | '[' :: rest => parseListTail (skipWs rest)
  | _ => none

/-- `str::split('.')` (Rust): dot-separated segments, keeping empty
segments; defined by structural recursion so that it evaluates by
kernel reduction. -/
def splitDotsAux : List Char → List Char → List String
  | [], acc => [⟨acc.reverse⟩]
  | c :: rest, acc =>
    if c = '.' then ⟨acc.reverse⟩ :: splitDotsAux rest []
    else splitDotsAux rest (c :: acc)

/-- Split a key at dots. -/
def splitDots (s : String) : List String := splitDotsAux s.data []

/-! ## Merkql matcher (`meshql-merkql/src/matcher.rs`) -/

/-- Path lookup in a JSON value (`get_path`): descend through objects by
key; a non-empty path into a non-object fails. -/
def getPath : JValue → List String → Option JValue
  | v, [] => some v
  | .obj m, h :: t =>
    match m.get h with
    | some child => getPath child t
    | none => none
  | _, _ :: _ => none

/-- `matcher::matches`: the query must be an object; every key, split at
dots, must resolve in the record to a value equal to the query value. -/
def matcherMatches (record query : JValue) : Bool :=
  match query with
  | .obj q =>
    q.allPairs fun k expected =>
      match getPath record (splitDots k) with
      | some actual => actual == expected
      | none => false
  | _ => false

/-! ## Sqlite query lowering (`meshql-sqlite/src/query.rs`) -/

/-- Shape of one SQL condition produced by `build_where`. -/
inductive WhereClause where
  | idEq
  | payloadFieldEq (field : String)
deriving DecidableEq

/-- `key.strip_prefix("payload.")`: the remainder after the literal
`payload.` lead, when present. -/
def stripPayloadDot (key : String) : Option String :=
  match key.data with
  | 'p' :: 'a' :: 'y' :: 'l' :: 'o' :: 'a' :: 'd' :: '.' :: rest => some ⟨rest⟩
  | _ => none

/-- `build_where`: `"id"` lowers to `id = ?`, `"payload.<f>"` to
`json_extract(payload, '$.<f>') = ?`, anything else is skipped.  Each
clause is paired with its bound value (the source keeps two parallel
vectors, pushed in lockstep); values are coerced to strings, non-strings
via `to_string`. -/
def buildWhere : JObj → List (WhereClause × String)
  | .nil => []
  | .cons key v t =>
    let strVal := match v with
      | .str s => s
      | other => other.toStringCompact
    if key = "id" then (.idEq, strVal) :: buildWhere t
    else
      match stripPayloadDot key with
      | some field => (.payloadFieldEq field, strVal) :: buildWhere t
      | none => buildWhere t

/-- SQLite evaluation of one bound condition against a decoded row.
`id = ?` compares TEXT with TEXT.  `json_extract(payload,'$.f') = ?`
yields TEXT for JSON strings, INTEGER for integers and booleans, NULL
for a missing path or JSON null, and minified JSON text for arrays and
objects; SQLite's `=` across distinct storage classes (INTEGER vs TEXT,
or anything vs NULL) is never true. -/
def evalClause (r : SqlRow) : WhereClause × String → Bool
  | (.idEq, v) => r.id == v
  | (.payloadFieldEq f, v) =>
    match r.payload.get f with
    | some (.str s) => s == v
    | some (.arr xs) => (JValue.arr xs).toStringCompact == v
    | some (.obj m) => (JValue.obj m).toStringCompact == v
    | _ => false

/-! ## Sqlite searcher (`meshql-sqlite/src/searcher.rs`)

Template rendering (Handlebars) is an external collaborator; the model
takes the rendered JSON query object as input.  `execute_query` uses
`cutoff = at + 1`, a CTE ranking rows by `(created_at_ms DESC, rowid
DESC)` per id **among the rows within the cutoff**, keeps rank 1,
non-tombstoned rows matching the `build_where` conditions, and applies a
trailing `LIMIT` when given (a negative SQL `LIMIT` means no limit). -/

/-- Rows within the cutoff, paired with their `rowid`. -/
def cutoffRows (table : List SqlRow) (cutoff : Int) : List (Nat × SqlRow) :=
  table.enum.filter fun p => decide (p.2.created_at_ms ≤ cutoff)

/-- Rank-1 predicate of the searcher CTE: no row of the same id among
`cands` sorts after `p`. -/
def isLatestAmong (cands : List (Nat × SqlRow)) (p : Nat × SqlRow) : Bool :=
  cands.all fun q => !(q.2.id == p.2.id) || !(decide (rowAfter q p))

/-- SQLite `LIMIT n`: first `n` rows when `n ≥ 0`, all rows when
negative. -/
def applySqlLimit (rows : List JObj) (lim : Int) : List JObj :=
  if lim < 0 then rows else rows.take lim.toNat

/-- `SqliteSearcher::execute_query` on the rendered query object. -/
def sqliteExecuteQuery (table : List SqlRow) (queryObj : JObj) (atMs : Int)
    (limit : Option Int) : List Stash :=
  let conds := buildWhere queryObj
  let cands := cutoffRows table (atMs + 1)
  let rows := cands.filter fun p =>
    isLatestAmong cands p && !p.2.deleted && conds.all (evalClause p.2)
  let rows := rows.map fun p => (p.2.payload).insert "id" (.str p.2.id)
  match limit with
  | some lim => applySqlLimit rows lim
  | none => rows

/-- `SqliteSearcher::find_all`: numeric `limit` from the argument stash
(`as_i64`), passed as the SQL `LIMIT`. -/
def sqliteFindAll (table : List SqlRow) (queryObj : JObj) (args : Stash)
    (atMs : Int) : List Stash :=
  let limit := (args.get "limit").bind JValue.asI64
  sqliteExecuteQuery table queryObj atMs limit

/-- `SqliteSearcher::find`: `execute_query` with `LIMIT 1`, returning the
popped (last) result. -/
def sqliteFind (table : List SqlRow) (queryObj : JObj) (atMs : Int) :
    Option Stash :=
  (sqliteExecuteQuery table queryObj atMs (some 1)).getLast?

/-! ## Merkql searcher (`meshql-merkql/src/searcher.rs`) -/

/-- Lookup in an association list (models `HashMap::get`). -/
def assocGet {α : Type} (m : List (String × α)) (k : String) : Option α :=
  (m.find? fun p => p.1 == k).map fun p => p.2

/-- Update of an existing key in an association list. -/
def assocSet {α : Type} (m : List (String × α)) (k : String) (v : α) :
    List (String × α) :=
  m.map fun p => if p.1 == k then (k, v) else p

/-- `MerkqlSearcher::scan_latest`: fold the topic into latest-per-id
within the cutoff (comparing millisecond timestamps, later offsets
winning ties), then drop tombstones.  `HashMap::into_values` yields the
values in unspecified order; the model uses first-insertion order. -/
def merkqlScanLatest (envelopes : List Envelope) (cutoffMs : Int) :
    List Envelope :=
  let byId := envelopes.foldl
    (fun m env =>
      let ms := env.created_at.ms
      if cutoffMs < ms then m
      else
        match assocGet m env.id with
        | none => m ++ [(env.id, (ms, env))]
        | some (ems, _) => if ems ≤ ms then assocSet m env.id (ms, env) else m)
    []
  (byId.map fun p => p.2.2).filter fun e => !e.deleted

/-- Record JSON built by `scan_latest` for matching: top-level `id` and
the payload as a sub-object. -/
def recordJson (e : Envelope) : JValue :=
  .obj (.cons "id" (.str e.id) (.cons "payload" (.obj e.payload) .nil))

/-- `envelope_to_stash`: the payload with the id merged in under
`"id"`. -/
def envelopeToStash (e : Envelope) : Stash :=
  e.payload.insert "id" (.str e.id)

/-- Rust's `as usize` on an `i64`: two's-complement cast. -/
def usizeOfI64 (v : Int) : Nat := (v % 2 ^ 64).toNat

/-- `MerkqlSearcher::find_all` on the rendered query: scan, match,
stash-convert, then `truncate` by the numeric `limit` argument when
present (`as_i64`, cast `as usize`). -/
def merkqlFindAll (envelopes : List Envelope) (query : JValue) (args : Stash)
    (atMs : Int) : List Stash :=
  let limit := ((args.get "limit").bind JValue.asI64).map usizeOfI64
  let results :=
    ((merkqlScanLatest envelopes atMs).filter fun e =>
      matcherMatches (recordJson e) query).map envelopeToStash
  match limit with
  | some lim => results.take lim
  | none => results

/-- `MerkqlSearcher::find` on the rendered query: first match of the
scan. -/
def merkqlFind (envelopes : List Envelope) (query : JValue) (atMs : Int) :
    Option Stash :=
  ((merkqlScanLatest envelopes atMs).find? fun e =>
    matcherMatches (recordJson e) query).map envelopeToStash

/-! ## Resolver selection of the dynamic schema builder
(`meshql-graphlette/src/schema_builder.rs`)

All four resolver-config structs of `meshql-core/src/config.rs` have the
shape `{field_name, foreign_key, query_name, endpoint}` (the endpoint
field is `url` for the external kinds and `graphlette_path` for the
internal ones); one Lean structure models all four. -/

/-- One resolver entry of a `RootConfig`. -/
structure ResolverCfg where
  field_name : String
  foreign_key : Option String
  query_name : String
  endpoint_ref : String
deriving DecidableEq

/-- The resolver sequences of a `RootConfig` (the query entries play no
part in object-field binding and are omitted). -/
structure RootConfig where
  singleton_resolvers : List ResolverCfg
  vector_resolvers : List ResolverCfg
  internal_singleton_resolvers : List ResolverCfg
  internal_vector_resolvers : List ResolverCfg
deriving DecidableEq

/-- Dot-joined concatenation (inverse of `splitDots` on segments). -/
def joinDots : List String → String
  | [] => ""
  | [s] => s
  | s :: t :: rest => s ++ "." ++ joinDots (t :: rest)

/-- `str::rsplit_once('.')`: split at the last dot. -/
def rsplitOnceDot (s : String) : Option (String × String) :=
  match splitDots s with
  | [] => none
  | [_] => none
  | parts => some (joinDots parts.dropLast, parts.getLastD "")

/-- Match predicate of the vector (and internal-vector) resolver search:
exact field name, or the suffix of a dotted `field_name`. -/
def vectorFieldPred (r : ResolverCfg) (fieldName : String) : Bool :=
  r.field_name == fieldName ||
    (match rsplitOnceDot r.field_name with
     | some (_, suffix) => suffix == fieldName
     | none => false)

/-- Binding chosen for a non-scalar object field. -/
inductive FieldBinding where
  | singleton (r : ResolverCfg)
  | internalSingleton (r : ResolverCfg)
  | vector (r : ResolverCfg)
  | internalVector (r : ResolverCfg)
  | nullField
deriving DecidableEq

/-- Resolver selection in `build_schema` for a non-scalar field: the four
`find` calls feed an `if let` chain in the order singleton,
internal-singleton, vector, internal-vector; no match yields the null
field.  (A chosen resolver whose endpoint is absent from the registry
also degrades to null at build time; that happens after this choice.) -/
def resolveObjectField (cfg : RootConfig) (fieldName : String) : FieldBinding :=
  match cfg.singleton_resolvers.find? fun r => r.field_name == fieldName with
  | some r => .singleton r
  | none =>
    match cfg.internal_singleton_resolvers.find? fun r => r.field_name == fieldName with
    | some r => .internalSingleton r
    | none =>
      match cfg.vector_resolvers.find? fun r => vectorFieldPred r fieldName with
      | some r => .vector r
      | none =>
        match cfg.internal_vector_resolvers.find? fun r => vectorFieldPred r fieldName with
        | some r => .internalVector r
        | none => .nullField

/-! ## Flat-JSON conversions (`meshql-merksql/src/convert.rs`) -/

/-- Metadata segment of the flat JSON object: the four `_`-prefixed
fields, in the insertion order of `envelope_to_flat_json` (used to state
the shape of the produced object). -/
def flatMeta (e : Envelope) : JObj :=
  .cons "_id" (.str e.id) (.cons "_created_at" (.int e.created_at.ms)
    (.cons "_deleted" (.bool e.deleted)
      (.cons "_tokens" (.str (renderStringList e.authorized_tokens)) .nil)))

/-- `key.starts_with('_')`. -/
def startsWithUnderscore (k : String) : Bool :=
  match k.data with
  | '_' :: _ => true
  | _ => false

/-- `envelope_to_flat_json`: metadata fields under `_`-prefixed keys (the
token list double-encoded through `serde_json::to_string`), then the
payload fields hoisted to the top level. -/
def envelopeToFlatJson (e : Envelope) : JValue :=
  let m := JObj.nil.insert "_id" (.str e.id)
  let m := m.insert "_created_at" (.int e.created_at.ms)
  let m := m.insert "_deleted" (.bool e.deleted)
  let m := m.insert "_tokens" (.str (renderStringList e.authorized_tokens))
  let m := e.payload.pairs.foldl (fun acc p => acc.insert p.1 p.2) m
  .obj m

/-- `flat_json_to_envelope`: read the metadata fields back (`_id` and
`_created_at` are required, `_deleted` must be present but defaults to
`false` when not a boolean, `_tokens` defaults to `"[]"` and to the empty
list when unparsable), rebuild the timestamp with
`Utc.timestamp_millis_opt(..).single()`, and collect every
non-underscore key as the payload. -/
def flatJsonToEnvelope (j : JValue) : Option Envelope :=
  match j with
  | .obj obj =>
    match (obj.get "_id").bind JValue.asStr with
    | none => none
    | some id =>
      match (obj.get "_created_at").bind JValue.asI64 with
      | none => none
      | some createdAtMs =>
        match obj.get "_deleted" with
        | none => none
        | some dv =>
          let deleted := dv.asBool.getD false
          let tokensStr := ((obj.get "_tokens").bind JValue.asStr).getD "[]"
          let authorized_tokens := (parseStringList tokensStr).getD []
          match timestampMillisOpt createdAtMs with
          | none => none
          | some created_at =>
            let payload := obj.pairs.foldl
              (fun acc p =>
                if startsWithUnderscore p.1 then acc else acc.insert p.1 p.2)
              JObj.nil
            some { id := id, payload := payload, created_at := created_at
                   deleted := deleted, authorized_tokens := authorized_tokens }
  | _ => none

/-- Modelled from the words of the specification's matching semantic, for
comparison with the code's `matcher::matches`: keys other than `"id"` and
`"payload.<field>"` are ignored (skipped); the recognized keys are
equality predicates over the record, combined conjunctively. -/
def specMatches (record : JValue) (query : JObj) : Bool :=
  query.allPairs fun k v =>
    if k = "id" then getPath record ["id"] == some v
    else
      match stripPayloadDot k with
      | some f => getPath record ["payload", f] == some v
      | none => true

/-! ## Concrete fixtures used by witnesses and counterexamples -/

/-- Sample payload. -/
def payloadW : Stash := JObj.ofList [("name", .str "alpha"), ("type", .str "typeA")]

/-- Row of id `x` at 5 ms. -/
def rowA : SqlRow := ⟨"x", 5, false, ["a"], payloadW⟩

/-- Row of id `x` at 9 ms. -/
def rowB : SqlRow := ⟨"x", 9, false, ["a"], payloadW⟩

/-- Envelope of id `x` at 5 ms. -/
def envA : Envelope := ⟨"x", payloadW, .ofMs 5, false, ["a"]⟩

/-- Envelope of id `x` at 9 ms. -/
def envB : Envelope := ⟨"x", payloadW, .ofMs 9, false, ["a"]⟩

/-- Envelope with an empty id. -/
def envEmptyId : Envelope := ⟨"", payloadW, .ofMs 5, false, ["a"]⟩

/-- Envelope with sub-millisecond timestamp precision and tokens that
need JSON escaping. -/
def envSubMs : Envelope := ⟨"y", payloadW, ⟨100000005⟩, false, ["a", "b\"c"]⟩

/-- Root config whose vector and internal-singleton sequences both match
the field `x`. -/
def cfgVecIS : RootConfig :=
  ⟨[], [⟨"x", none, "q", "u"⟩], [⟨"x", none, "q2", "p"⟩], []⟩

/-- Mongo document of id `x` at 5 ms. -/
def docA : MongoDoc := ⟨"x", 5, false, ["a"], payloadW⟩

/-! ## Order lemmas for the `(created_at_ms, rowid)` sort -/

theorem rowLe_refl (p : Nat × SqlRow) : rowLe p p := Or.inr ⟨rfl, le_refl _⟩

theorem rowLe_trans {a b c : Nat × SqlRow} (h1 : rowLe a b) (h2 : rowLe b c) :
    rowLe a c := by
  unfold rowLe at *; omega

theorem not_rowAfter_iff {q p : Nat × SqlRow} : ¬ rowAfter q p ↔ rowLe q p := by
  unfold rowAfter rowLe; omega

theorem rowAfter_rowLe {p q : Nat × SqlRow} (h : rowAfter p q) : rowLe q p := by
  unfold rowAfter at h; unfold rowLe; omega

/-! ## Characterization of the sqlite max-candidate fold -/

theorem foldl_selectStep_some (l : List (Nat × SqlRow)) (a : Nat × SqlRow) :
    ∃ r, l.foldl selectStep (some a) = some r ∧ (r = a ∨ r ∈ l) ∧
      rowLe a r ∧ ∀ q ∈ l, rowLe q r := by
  induction l generalizing a with
  | nil => exact ⟨a, rfl, Or.inl rfl, rowLe_refl a, by simp⟩
  | cons x l ih =>
    simp only [List.foldl_cons]
    by_cases h : rowAfter x a
    · rw [show selectStep (some a) x = some x by simp [selectStep, h]]
      obtain ⟨r, hr, hmem, hle, hall⟩ := ih x
      refine ⟨r, hr, ?_, rowLe_trans (rowAfter_rowLe h) hle, ?_⟩
      · rcases hmem with h1 | h1
        · exact Or.inr (by simp [h1])
        · exact Or.inr (by simp [h1])
      · intro q hq
        rcases List.mem_cons.mp hq with h1 | h1
        · subst h1; exact hle
        · exact hall q h1
    · rw [show selectStep (some a) x = some a by simp [selectStep, h]]
      obtain ⟨r, hr, hmem, hle, hall⟩ := ih a
      refine ⟨r, hr, ?_, hle, ?_⟩
      · rcases hmem with h1 | h1
        · exact Or.inl h1
        · exact Or.inr (by simp [h1])
      · intro q hq
        rcases List.mem_cons.mp hq with h1 | h1
        · subst h1; exact rowLe_trans (not_rowAfter_iff.mp h) hle
        · exact hall q h1

theorem selectLatestIdx_spec {l : List (Nat × SqlRow)} {r : Nat × SqlRow}
    (h : selectLatestIdx l = some r) : r ∈ l ∧ ∀ q ∈ l, rowLe q r := by
  match l with
  | [] => simp [selectLatestIdx] at h
  | x :: l =>
    obtain ⟨r', hr', hmem, hle, hall⟩ := foldl_selectStep_some l x
    rw [show selectLatestIdx (x :: l) = l.foldl selectStep (some x) from rfl, hr'] at h
    cases h
    constructor
    · rcases hmem with h1 | h1
      · simp [h1]
      · simp [h1]
    · intro q hq
      rcases List.mem_cons.mp hq with h1 | h1
      · subst h1; exact hle
      · exact hall q h1

theorem foldl_selectStep_last (l1 : List (Nat × SqlRow)) (a p : Nat × SqlRow)
    (ha : rowAfter p a) (h1 : ∀ q ∈ l1, rowAfter p q) :
    (l1 ++ [p]).foldl selectStep (some a) = some p := by
  induction l1 generalizing a with
  | nil => simp [selectStep, ha]
  | cons x l ih =>
    simp only [List.cons_append, List.foldl_cons]
    by_cases h : rowAfter x a
    · rw [show selectStep (some a) x = some x by simp [selectStep, h]]
      exact ih x (h1 x (by simp)) (fun q hq => h1 q (by simp [hq]))
    · rw [show selectStep (some a) x = some a by simp [selectStep, h]]
      exact ih a ha (fun q hq => h1 q (by simp [hq]))

theorem selectLatestIdx_append_last (l1 : List (Nat × SqlRow)) (p : Nat × SqlRow)
    (h1 : ∀ q ∈ l1, rowAfter p q) :
    selectLatestIdx (l1 ++ [p]) = some p := by
  match l1 with
  | [] => simp [selectLatestIdx, selectStep]
  | x :: l =>
    show ((x :: l) ++ [p]).foldl selectStep none = some p
    simp only [List.cons_append, List.foldl_cons]
    exact foldl_selectStep_last l x p (h1 x (by simp))
      (fun q hq => h1 q (by simp [hq]))

/-! ## Characterization of the merkql `max_by_key` fold -/

theorem foldl_maxMsStep_some (l : List Envelope) (a : Envelope) :
    ∃ r, l.foldl maxMsStep (some a) = some r ∧ (r = a ∨ r ∈ l) ∧
      a.created_at.ms ≤ r.created_at.ms ∧
      ∀ q ∈ l, q.created_at.ms ≤ r.created_at.ms := by
  induction l generalizing a with
  | nil => exact ⟨a, rfl, Or.inl rfl, le_refl _, by simp⟩
  | cons x l ih =>
    simp only [List.foldl_cons]
    by_cases h : a.created_at.ms ≤ x.created_at.ms
    · rw [show maxMsStep (some a) x = some x by simp [maxMsStep, h]]
      obtain ⟨r, hr, hmem, hle, hall⟩ := ih x
      refine ⟨r, hr, ?_, le_trans h hle, ?_⟩
      · rcases hmem with h1 | h1
        · exact Or.inr (by simp [h1])
        · exact Or.inr (by simp [h1])
      · intro q hq
        rcases List.mem_cons.mp hq with h1 | h1
        · subst h1; exact hle
        · exact hall q h1
    · rw [show maxMsStep (some a) x = some a by simp [maxMsStep, h]]
      obtain ⟨r, hr, hmem, hle, hall⟩ := ih a
      refine ⟨r, hr, ?_, hle, ?_⟩
      · rcases hmem with h1 | h1
        · exact Or.inl h1
        · exact Or.inr (by simp [h1])
      · intro q hq
        rcases List.mem_cons.mp hq with h1 | h1
        · subst h1; exact le_trans (by omega) hle
        · exact hall q h1

theorem foldl_maxMsStep_decomp (l : List Envelope) (a r : Envelope)
    (h : l.foldl maxMsStep (some a) = some r) :
    (r = a ∧ ∀ q ∈ l, q.created_at.ms < a.created_at.ms) ∨
      ∃ pre suf, l = pre ++ r :: suf ∧
        ∀ q ∈ suf, q.created_at.ms < r.created_at.ms := by
  induction l generalizing a with
  | nil =>
    cases h
    exact Or.inl ⟨rfl, by simp⟩
  | cons x l ih =>
    simp only [List.foldl_cons] at h
    by_cases hx : a.created_at.ms ≤ x.created_at.ms
    · rw [show maxMsStep (some a) x = some x by simp [maxMsStep, hx]] at h
      rcases ih x h with ⟨hr, hall⟩ | ⟨pre, suf, hdec, hsuf⟩
      · exact Or.inr ⟨[], l, by simp [hr], hr ▸ hall⟩
      · exact Or.inr ⟨x :: pre, suf, by simp [hdec], hsuf⟩
    · rw [show maxMsStep (some a) x = some a by simp [maxMsStep, hx]] at h
      rcases ih a h with ⟨hr, hall⟩ | ⟨pre, suf, hdec, hsuf⟩
      · refine Or.inl ⟨hr, ?_⟩
        intro q hq
        rcases List.mem_cons.mp hq with h1 | h1
        · subst h1; omega
        · exact hall q h1
      · exact Or.inr ⟨x :: pre, suf, by simp [hdec], hsuf⟩

theorem maxByCreatedAtMs_spec {l : List Envelope} {r : Envelope}
    (h : maxByCreatedAtMs l = some r) :
    (r ∈ l ∧ ∀ q ∈ l, q.created_at.ms ≤ r.created_at.ms) ∧
      ∃ pre suf, l = pre ++ r :: suf ∧
        ∀ q ∈ suf, q.created_at.ms < r.created_at.ms := by
  match l with
  | [] => simp [maxByCreatedAtMs] at h
  | x :: l =>
    have h' : l.foldl maxMsStep (some x) = some r := h
    obtain ⟨r', hr', hmem, hle, hall⟩ := foldl_maxMsStep_some l x
    rw [hr'] at h'
    obtain rfl : r' = r := Option.some.inj h'
    refine ⟨⟨?_, ?_⟩, ?_⟩
    · rcases hmem with h1 | h1
      · simp [h1]
      · simp [h1]
    · intro q hq
      rcases List.mem_cons.mp hq with h1 | h1
      · subst h1; exact hle
      · exact hall q h1
    · rcases foldl_maxMsStep_decomp l x r' hr' with ⟨hr, hallx⟩ | ⟨pre, suf, hdec, hsuf⟩
      · exact ⟨[], l, by simp [hr], hr ▸ hallx⟩
      · exact ⟨x :: pre, suf, by simp [hdec], hsuf⟩

theorem foldl_maxMsStep_const (l : List Envelope) (a : Envelope)
    (h : ∀ q ∈ l, q.created_at.ms < a.created_at.ms) :
    l.foldl maxMsStep (some a) = some a := by
  induction l with
  | nil => rfl
  | cons x l ih =>
    simp only [List.foldl_cons]
    have hx : ¬ (a.created_at.ms ≤ x.created_at.ms) := by
      have := h x (by simp); omega
    rw [show maxMsStep (some a) x = some a by simp [maxMsStep, hx]]
    exact ih (fun q hq => h q (by simp [hq]))

/-! ## Membership for the mongo pipeline fold -/

theorem foldl_mongoMaxStep_mem (l : List MongoDoc) (a r : MongoDoc)
    (h : l.foldl mongoMaxStep (some a) = some r) : r = a ∨ r ∈ l := by
  induction l generalizing a with
  | nil => cases h; exact Or.inl rfl
  | cons x l ih =>
    simp only [List.foldl_cons] at h
    by_cases hx : a.createdAtMs < x.createdAtMs
    · rw [show mongoMaxStep (some a) x = some x by simp [mongoMaxStep, hx]] at h
      rcases ih x h with h1 | h1
      · exact Or.inr (by simp [h1])
      · exact Or.inr (by simp [h1])
    · rw [show mongoMaxStep (some a) x = some a by simp [mongoMaxStep, hx]] at h
      rcases ih a h with h1 | h1
      · exact Or.inl h1
      · exact Or.inr (by simp [h1])

theorem mongoFirstByCreatedAt_mem {l : List MongoDoc} {r : MongoDoc}
    (h : mongoFirstByCreatedAt l = some r) : r ∈ l := by
  match l with
  | [] => simp [mongoFirstByCreatedAt] at h
  | x :: l =>
    have h' : l.foldl mongoMaxStep (some x) = some r := h
    rcases foldl_mongoMaxStep_mem l x r h' with h1 | h1
    · simp [h1]
    · simp [h1]

/-! ## Filter decompositions -/

theorem sqliteCandidates_eq (table : List SqlRow) (id : String) (cutoff : Int) :
    sqliteCandidates table id cutoff =
      (table.enum.filter fun p => p.2.id == id).filter
        fun p => decide (p.2.created_at_ms ≤ cutoff) := by
  rw [List.filter_filter]
  unfold sqliteCandidates
  congr 1
  funext p
  exact Bool.and_comm _ _

theorem merkqlCandidates_eq (envelopes : List Envelope) (id : String)
    (cutoffMs : Int) :
    (envelopes.filter fun e => e.id == id && decide (e.created_at.ms ≤ cutoffMs)) =
      (envelopes.filter fun e => e.id == id).filter
        fun e => decide (e.created_at.ms ≤ cutoffMs) := by
  rw [List.filter_filter]
  congr 1
  funext e
  exact Bool.and_comm _ _

/-- C1: for every stored history and id, the version selected by `read`
is, among stored envelopes with that id and `created_at_ms ≤ cutoff`, the
one with the largest `created_at_ms`, ties broken by largest insertion
order — in the sqlite realization (largest `(created_at_ms, rowid)`
candidate) and in the merkql realization (`latest_for_id` returns the
last maximal element of the offset-ordered scan).  Consequently, when the
history for an id consists of versions v1 at t1 and v2 at t2 with
t1 < t2, the selection at cutoff t is v1 for t1 ≤ t < t2 and v2 for
t ≥ t2, in both realizations. -/
theorem claim_c1_latest_selection :
    (∀ (table : List SqlRow) (id : String) (cutoff : Int) (i : Nat) (r : SqlRow),
      selectLatestIdx (sqliteCandidates table id cutoff) = some (i, r) →
        (i, r) ∈ sqliteCandidates table id cutoff ∧
          ∀ j s, (j, s) ∈ sqliteCandidates table id cutoff →
            s.created_at_ms < r.created_at_ms ∨
              (s.created_at_ms = r.created_at_ms ∧ j ≤ i)) ∧
    (∀ (envelopes : List Envelope) (id : String) (cutoffMs : Int) (e : Envelope),
      latestForId envelopes id cutoffMs = some e →
        ∃ pre suf,
          (envelopes.filter fun v => v.id == id && decide (v.created_at.ms ≤ cutoffMs)) =
              pre ++ e :: suf ∧
            (∀ f ∈ pre, f.created_at.ms ≤ e.created_at.ms) ∧
            ∀ f ∈ suf, f.created_at.ms < e.created_at.ms) ∧
    (∀ (table : List SqlRow) (id : String) (i1 i2 : Nat) (v1 v2 : SqlRow)
        (t1 t2 : Int),
      (table.enum.filter fun p => p.2.id == id) = [(i1, v1), (i2, v2)] →
      v1.created_at_ms = t1 → v2.created_at_ms = t2 → t1 < t2 →
        (∀ t, t1 ≤ t → t < t2 →
          (selectLatestIdx (sqliteCandidates table id t)).map Prod.snd = some v1) ∧
        ∀ t, t2 ≤ t →
          (selectLatestIdx (sqliteCandidates table id t)).map Prod.snd = some v2) ∧
    ∀ (envelopes : List Envelope) (id : String) (v1 v2 : Envelope) (t1 t2 : Int),
      (envelopes.filter fun v => v.id == id) = [v1, v2] →
      v1.created_at.ms = t1 → v2.created_at.ms = t2 → t1 < t2 →
        (∀ t, t1 ≤ t → t < t2 → latestForId envelopes id t = some v1) ∧
        ∀ t, t2 ≤ t → latestForId envelopes id t = some v2 := by
  refine ⟨?_, ?_, ?_, ?_⟩
  · intro table id cutoff i r h
    obtain ⟨hmem, hall⟩ := selectLatestIdx_spec h
    refine ⟨hmem, fun j s hjs => ?_⟩
    have := hall (j, s) hjs
    unfold rowLe at this
    simpa using this
  · intro envelopes id cutoffMs e h
    unfold latestForId at h
    obtain ⟨⟨_, hall⟩, pre, suf, hdec, hsuf⟩ := maxByCreatedAtMs_spec h
    refine ⟨pre, suf, hdec, ?_, hsuf⟩
    intro f hf
    apply hall
    rw [hdec]
    exact List.mem_append_left _ hf
  · intro table id i1 i2 v1 v2 t1 t2 hfilter h1 h2 hlt
    subst h1; subst h2
    constructor
    · intro t ht1 ht2
      have hc : sqliteCandidates table id t = [(i1, v1)] := by
        rw [sqliteCandidates_eq, hfilter]
        have hA : decide (v1.created_at_ms ≤ t) = true := by simpa using ht1
        have hB : decide (v2.created_at_ms ≤ t) = false := by
          simp only [decide_eq_false_iff_not]; omega
        simp [List.filter_cons, hA, hB]
      rw [hc]
      rfl
    · intro t ht2
      have hc : sqliteCandidates table id t = [(i1, v1), (i2, v2)] := by
        rw [sqliteCandidates_eq, hfilter]
        have hA : decide (v1.created_at_ms ≤ t) = true := by
          simp only [decide_eq_true_eq]; omega
        have hB : decide (v2.created_at_ms ≤ t) = true := by simpa using ht2
        simp [List.filter_cons, hA, hB]
      rw [hc]
      have hafter : rowAfter (i2, v2) (i1, v1) := Or.inl hlt
      have : selectLatestIdx [(i1, v1), (i2, v2)] = some (i2, v2) := by
        show selectStep (selectStep none (i1, v1)) (i2, v2) = some (i2, v2)
        rw [show selectStep none (i1, v1) = some (i1, v1) from rfl]
        simp [selectStep, hafter]
      rw [this]
      rfl
  · intro envelopes id v1 v2 t1 t2 hfilter h1 h2 hlt
    subst h1; subst h2
    constructor
    · intro t ht1 ht2
      unfold latestForId
      rw [merkqlCandidates_eq, hfilter]
      have hA : decide (v1.created_at.ms ≤ t) = true := by simpa using ht1
      have hB : decide (v2.created_at.ms ≤ t) = false := by
        simp only [decide_eq_false_iff_not]; omega
      simp only [List.filter_cons, hA, hB, List.filter_nil, cond_true, cond_false]
      rfl
    · intro t ht2
      unfold latestForId
      rw [merkqlCandidates_eq, hfilter]
      have hA : decide (v1.created_at.ms ≤ t) = true := by
        simp only [decide_eq_true_eq]; omega
      have hB : decide (v2.created_at.ms ≤ t) = true := by simpa using ht2
      simp only [List.filter_cons, hA, hB, List.filter_nil, cond_true]
      show maxMsStep (maxMsStep none v1) v2 = some v2
      rw [show maxMsStep none v1 = some v1 from rfl]
      simp [maxMsStep]
      omega

/-- C1 witness: the temporal selection on a concrete two-version history
(rows at 5 ms and 9 ms): cutoff 7 selects the older version, cutoff 9 the
newer one, in both realizations. -/
theorem claim_c1_latest_selection_witness :
    (selectLatestIdx (sqliteCandidates [rowA, rowB] "x" 7)).map Prod.snd = some rowA ∧
    (selectLatestIdx (sqliteCandidates [rowA, rowB] "x" 9)).map Prod.snd = some rowB ∧
    latestForId [envA, envB] "x" 7 = some envA ∧
    latestForId [envA, envB] "x" 9 = some envB := by
  have h3 := (claim_c1_latest_selection.2.2.1 [rowA, rowB] "x" 0 1 rowA rowB 5 9
    (by decide) rfl rfl (by decide))
  have h4 := (claim_c1_latest_selection.2.2.2 [envA, envB] "x" envA envB 5 9
    (by decide) rfl rfl (by decide))
  exact ⟨h3.1 7 (by decide) (by decide), h3.2 9 (by decide),
    h4.1 7 (by decide) (by decide), h4.2 9 (by decide)⟩

/-! ## Enumeration and candidate lemmas -/

theorem enum_mem_lt {α : Type} {l : List α} {i : Nat} {a : α}
    (h : (i, a) ∈ l.enum) : i < l.length :=
  (List.get?_eq_some.mp (List.mk_mem_enum_iff_get?.mp h)).1

theorem enum_mem_mem {α : Type} {l : List α} {i : Nat} {a : α}
    (h : (i, a) ∈ l.enum) : a ∈ l :=
  List.get?_mem (List.mk_mem_enum_iff_get?.mp h)

theorem enum_mem_unique {α : Type} {l : List α} {i : Nat} {a b : α}
    (h : (i, a) ∈ l.enum) (h2 : (i, b) ∈ l.enum) : a = b := by
  have ha := List.mk_mem_enum_iff_get?.mp h
  have hb := List.mk_mem_enum_iff_get?.mp h2
  rw [ha] at hb
  exact Option.some.inj hb

theorem enum_append_singleton {α : Type} (l : List α) (x : α) :
    (l ++ [x]).enum = l.enum ++ [(l.length, x)] := by
  rw [List.enum_append]
  rfl

theorem rowLe_antisymm {a b : Nat × SqlRow} (h1 : rowLe a b) (h2 : rowLe b a) :
    a.1 = b.1 := by
  unfold rowLe at *; omega

theorem sqliteCandidates_prop {table : List SqlRow} {id : String} {cutoff : Int}
    {p : Nat × SqlRow} (h : p ∈ sqliteCandidates table id cutoff) :
    p ∈ table.enum ∧ p.2.id = id ∧ p.2.created_at_ms ≤ cutoff := by
  unfold sqliteCandidates at h
  obtain ⟨hmem, hcond⟩ := List.mem_filter.mp h
  rw [Bool.and_eq_true] at hcond
  exact ⟨hmem, by simpa using hcond.1, by simpa using hcond.2⟩

theorem idFilter_prop {table : List SqlRow} {id : String} {p : Nat × SqlRow}
    (h : p ∈ (table.enum.filter fun q => q.2.id == id)) :
    p ∈ table.enum ∧ p.2.id = id := by
  obtain ⟨hmem, hcond⟩ := List.mem_filter.mp h
  exact ⟨hmem, by simpa using hcond⟩

/-! ## Shape of a successful sqlite read -/

theorem sqliteRead_some {table : List SqlRow} {id : String}
    {tokens : List String} {at? : Option Int} {nowMs : Int} {env : Envelope}
    (h : sqliteRead table id tokens at? nowMs = some env) :
    ∃ i r, selectLatestIdx (sqliteCandidates table id (sqliteCutoffMs at? nowMs)) =
        some (i, r) ∧
      r.deleted = false ∧ env = rowToEnvelope r ∧ r.id = id ∧
      (i, r) ∈ table.enum ∧ r.created_at_ms ≤ sqliteCutoffMs at? nowMs := by
  unfold sqliteRead at h
  cases hsel : selectLatestIdx (sqliteCandidates table id (sqliteCutoffMs at? nowMs)) with
  | none => rw [hsel] at h; cases h
  | some p =>
    obtain ⟨i, r⟩ := p
    rw [hsel] at h
    have h' : (if r.deleted = true then none else some (rowToEnvelope r)) = some env := h
    by_cases hdel : r.deleted
    · rw [if_pos hdel] at h'
      cases h'
    · rw [if_neg hdel] at h'
      have hmem := (selectLatestIdx_spec (l := sqliteCandidates table id
        (sqliteCutoffMs at? nowMs)) hsel).1
      obtain ⟨henum, hid, hcut⟩ := sqliteCandidates_prop hmem
      exact ⟨i, r, rfl, by simpa using hdel, (Option.some.inj h').symm, hid, henum,
        hcut⟩

/-- Millisecond projection of a whole-millisecond timestamp. -/
theorem ofMs_ms (m : Int) : (DateTimeUtc.ofMs m).ms = m := by
  show m * 1000000 / 1000000 = m
  exact Int.mul_ediv_cancel m (by norm_num)

theorem sqliteCreate_eq (table : List SqlRow) (envelope : Envelope)
    (tokens : List String) (fresh : String) (h : envelope.id ≠ "") :
    sqliteCreate table envelope tokens fresh =
      ({ envelope with authorized_tokens := tokens },
        table ++ [⟨envelope.id, envelope.created_at.ms, envelope.deleted, tokens,
          envelope.payload⟩]) := by
  simp [sqliteCreate, h]

/-! ## Tombstone domination -/

theorem tombstone_selected (table : List SqlRow) (id : String) (tomb : SqlRow)
    (hid : tomb.id = id)
    (hbound : ∀ r ∈ table, r.id = id → r.created_at_ms ≤ tomb.created_at_ms)
    (cutoff : Int) (hcut : tomb.created_at_ms ≤ cutoff) :
    selectLatestIdx (sqliteCandidates (table ++ [tomb]) id cutoff) =
      some (table.length, tomb) := by
  unfold sqliteCandidates
  rw [enum_append_singleton, List.filter_append]
  rw [show List.filter (fun p => p.2.id == id && decide (p.2.created_at_ms ≤ cutoff))
        [(table.length, tomb)] = [(table.length, tomb)] by simp [hid, hcut]]
  apply selectLatestIdx_append_last
  intro q hq
  obtain ⟨hmem, hcond⟩ := List.mem_filter.mp hq
  rw [Bool.and_eq_true] at hcond
  have hqid : q.2.id = id := by simpa using hcond.1
  have hqms := hbound q.2 (enum_mem_mem hmem) hqid
  have hqlt : q.1 < table.length := enum_mem_lt hmem
  show q.2.created_at_ms < tomb.created_at_ms ∨
    (tomb.created_at_ms = q.2.created_at_ms ∧ q.1 < table.length)
  omega

/-! ## Shape of list membership -/

theorem sqliteList_mem {table : List SqlRow} {tokens : List String}
    {e : Envelope} (h : e ∈ sqliteList table tokens) :
    ∃ p, p ∈ table.enum ∧ isLatestOfItsId table p = true ∧
      p.2.deleted = false ∧ e = rowToEnvelope p.2 := by
  unfold sqliteList at h
  obtain ⟨p, hp, hrw⟩ := List.mem_map.mp h
  obtain ⟨hmem, hcond⟩ := List.mem_filter.mp hp
  rw [Bool.and_eq_true] at hcond
  exact ⟨p, hmem, hcond.1, by simpa using hcond.2, hrw.symm⟩

theorem isLatest_blocks {table : List SqlRow} {p q : Nat × SqlRow}
    (hp : isLatestOfItsId table p = true) (hq : q ∈ table.enum)
    (hid : q.2.id = p.2.id) : ¬ rowAfter q p := by
  unfold isLatestOfItsId at hp
  have := List.all_eq_true.mp hp q hq
  simp [hid] at this
  exact this


/-- C2: whenever the version selected by sqlite `read` is a tombstone the
read is absent; `list` never includes an id whose latest version (largest
`(created_at_ms, rowid)` over the whole history) is a tombstone; and
after a successful `remove(id)` — on a history whose versions for that id
are not dated after the removal time — a default-cutoff read at any later
time is absent, and `list` has no entry for the id. -/
theorem claim_c2_tombstone_masking :
    (∀ (table : List SqlRow) (id : String) (tokens : List String)
        (at? : Option Int) (nowMs : Int) (i : Nat) (r : SqlRow),
      selectLatestIdx (sqliteCandidates table id (sqliteCutoffMs at? nowMs)) =
          some (i, r) →
      r.deleted = true →
      sqliteRead table id tokens at? nowMs = none) ∧
    (∀ (table : List SqlRow) (tokens : List String) (id : String) (i : Nat)
        (r : SqlRow),
      selectLatestIdx (table.enum.filter fun p => p.2.id == id) = some (i, r) →
      r.deleted = true →
      ∀ e ∈ sqliteList table tokens, e.id ≠ id) ∧
    ∀ (table : List SqlRow) (id : String) (tokens tokens2 : List String)
        (nowMs now2 : Int) (fresh : String),
      id ≠ "" →
      (∀ r ∈ table, r.id = id → r.created_at_ms ≤ nowMs) →
      nowMs ≤ now2 →
      (sqliteRemove table id tokens nowMs fresh).1 = true →
      sqliteRead (sqliteRemove table id tokens nowMs fresh).2 id tokens2 none now2 =
          none ∧
        ∀ e ∈ sqliteList (sqliteRemove table id tokens nowMs fresh).2 tokens2,
          e.id ≠ id := by
  refine ⟨?_, ?_, ?_⟩
  · intro table id tokens at? nowMs i r hsel hdel
    unfold sqliteRead
    rw [hsel]
    simp [hdel]
  · intro table tokens id i r hsel hdel e he hid
    obtain ⟨p, hpenum, hplatest, hpdel, hpe⟩ := sqliteList_mem he
    have hpid : p.2.id = id := by
      rw [hpe] at hid
      simpa [rowToEnvelope] using hid
    have hpfilter : p ∈ (table.enum.filter fun q => q.2.id == id) :=
      List.mem_filter.mpr ⟨hpenum, by simp [hpid]⟩
    have hdom : rowLe p (i, r) := (selectLatestIdx_spec hsel).2 p hpfilter
    obtain ⟨hrenum, hrid⟩ := idFilter_prop (selectLatestIdx_spec hsel).1
    have hblock : ¬ rowAfter (i, r) p :=
      isLatest_blocks hplatest hrenum (by rw [hrid, hpid])
    have hidx : p.1 = i := rowLe_antisymm hdom (not_rowAfter_iff.mp hblock)
    have hpsnd : p.2 = r := by
      apply enum_mem_unique (l := table) (i := i)
      · rw [← hidx]
        exact hpenum
      · exact hrenum
    rw [hpsnd] at hpdel
    rw [hpdel] at hdel
    cases hdel
  · intro table id tokens tokens2 nowMs now2 fresh hid hbound hle htrue
    cases hread : sqliteRead table id tokens none nowMs with
    | none =>
      unfold sqliteRemove at htrue
      rw [hread] at htrue
      cases htrue
    | some env =>
      obtain ⟨i0, r0, hsel0, hdel0, henv, hid0, henum0, _⟩ := sqliteRead_some hread
      have hidenv : env.id = id := by rw [henv]; simpa [rowToEnvelope] using hid0
      have hremove : sqliteRemove table id tokens nowMs fresh =
          (true, table ++ [⟨id, nowMs, true, tokens, env.payload⟩]) := by
        unfold sqliteRemove
        rw [hread]
        show (true, (sqliteCreate table
          ⟨env.id, env.payload, DateTimeUtc.ofMs nowMs, true, env.authorized_tokens⟩
          tokens fresh).2) = _
        rw [sqliteCreate_eq _ _ _ _ (by show env.id ≠ ""; rw [hidenv]; exact hid)]
        show (true, table ++ [⟨env.id, (DateTimeUtc.ofMs nowMs).ms, true, tokens,
          env.payload⟩]) = _
        rw [hidenv, ofMs_ms]
      rw [hremove]
      have hbound' : ∀ r ∈ table, r.id = id →
          r.created_at_ms ≤ (SqlRow.mk id nowMs true tokens env.payload).created_at_ms :=
        hbound
      have hselect := tombstone_selected table id
        (SqlRow.mk id nowMs true tokens env.payload) rfl hbound' (now2 + 1)
        (by show nowMs ≤ now2 + 1; omega)
      constructor
      · unfold sqliteRead
        rw [show sqliteCutoffMs none now2 = now2 + 1 from rfl, hselect]
        simp
      · intro e he hide
        obtain ⟨p, hpenum, hplatest, hpdel, hpe⟩ := sqliteList_mem he
        have hpid : p.2.id = id := by
          rw [hpe] at hide
          simpa [rowToEnvelope] using hide
        rw [enum_append_singleton] at hpenum
        rcases List.mem_append.mp hpenum with hcase | hcase
        · have hafter : rowAfter
              (table.length, SqlRow.mk id nowMs true tokens env.payload) p := by
            have hms := hbound p.2 (enum_mem_mem hcase) hpid
            have hlt : p.1 < table.length := enum_mem_lt hcase
            show p.2.created_at_ms <
                (SqlRow.mk id nowMs true tokens env.payload).created_at_ms ∨
              ((SqlRow.mk id nowMs true tokens env.payload).created_at_ms =
                  p.2.created_at_ms ∧ p.1 < table.length)
            simp only []
            omega
          have hblock := isLatest_blocks hplatest
            (q := (table.length, SqlRow.mk id nowMs true tokens env.payload))
            (by rw [enum_append_singleton]; exact List.mem_append_right _ (by simp))
            (by simpa using hpid.symm)
          exact hblock hafter
        · have : p.2 = SqlRow.mk id nowMs true tokens env.payload := by
            have := List.mem_singleton.mp hcase
            rw [this]
          rw [this] at hpdel
          cases hpdel

/-- C2 witness: removing the only version of id `x` at time 10 makes a
later default-cutoff read absent and empties the listing of `x`. -/
theorem claim_c2_tombstone_masking_witness :
    sqliteRead (sqliteRemove [rowA] "x" ["a"] 10 "f").2 "x" ["b"] none 10 = none ∧
    ∀ e ∈ sqliteList (sqliteRemove [rowA] "x" ["a"] 10 "f").2 ["b"], e.id ≠ "x" :=
  claim_c2_tombstone_masking.2.2 [rowA] "x" ["a"] ["b"] 10 10 "f"
    (by decide) (by decide) (by decide) (by decide)

/-- C3, counterexample to the claim as stated: the merkql repository's
`create` writes the envelope unchanged — with an envelope whose id is
empty and stored tokens `["a"]`, called with tokens `["b"]`, the returned
envelope keeps the empty id and the old tokens, so no fresh identifier is
assigned and `authorized_tokens` is not overwritten. -/
theorem claim_c3_counterexample :
    (merkqlCreate [] envEmptyId ["b"]).1.id = "" ∧
    (merkqlCreate [] envEmptyId ["b"]).1.authorized_tokens = ["a"] ∧
    ¬ ((merkqlCreate [] envEmptyId ["b"]).1.id ≠ "" ∧
        (merkqlCreate [] envEmptyId ["b"]).1.authorized_tokens = ["b"]) := by
  refine ⟨rfl, rfl, ?_⟩
  intro h
  exact h.1 rfl

/-- C3, amended: the sqlite realization of `create` assigns the generated
identifier when the envelope's id is empty (and keeps a non-empty id),
overwrites `authorized_tokens` with the provided tokens, appends exactly
one row (never replacing), and returns the resulting envelope; the merkql
realization appends the envelope exactly as given, assigning no
identifier and ignoring the tokens argument. -/
theorem claim_c3_create_assigns_and_appends :
    (∀ (table : List SqlRow) (envelope : Envelope) (tokens : List String)
        (fresh : String),
      ((envelope.id = "" → (sqliteCreate table envelope tokens fresh).1.id = fresh) ∧
        (envelope.id ≠ "" →
          (sqliteCreate table envelope tokens fresh).1.id = envelope.id)) ∧
      (sqliteCreate table envelope tokens fresh).1.authorized_tokens = tokens ∧
      (sqliteCreate table envelope tokens fresh).1.payload = envelope.payload ∧
      (sqliteCreate table envelope tokens fresh).2 = table ++
        [⟨(sqliteCreate table envelope tokens fresh).1.id, envelope.created_at.ms,
          envelope.deleted, tokens, envelope.payload⟩]) ∧
    ∀ (envelopes : List Envelope) (envelope : Envelope) (tokens : List String),
      (merkqlCreate envelopes envelope tokens).1 = envelope ∧
      (merkqlCreate envelopes envelope tokens).2 = envelopes ++ [envelope] := by
  refine ⟨?_, fun envelopes envelope tokens => ⟨rfl, rfl⟩⟩
  intro table envelope tokens fresh
  by_cases h : envelope.id = ""
  · exact ⟨⟨fun _ => by simp [sqliteCreate, h], fun hne => absurd h hne⟩,
      by simp [sqliteCreate, h], by simp [sqliteCreate, h], by simp [sqliteCreate, h]⟩
  · exact ⟨⟨fun he => absurd he h, fun _ => by simp [sqliteCreate, h]⟩,
      by simp [sqliteCreate, h], by simp [sqliteCreate, h], by simp [sqliteCreate, h]⟩

/-- C3 witness: creating an empty-id envelope through the sqlite
realization assigns the generated id and the provided tokens. -/
theorem claim_c3_create_witness :
    (sqliteCreate [] envEmptyId ["b"] "u-1").1.id = "u-1" ∧
    (sqliteCreate [] envEmptyId ["b"] "u-1").1.authorized_tokens = ["b"] :=
  ⟨(claim_c3_create_assigns_and_appends.1 [] envEmptyId ["b"] "u-1").1.1 rfl,
    (claim_c3_create_assigns_and_appends.1 [] envEmptyId ["b"] "u-1").2.1⟩

/-- C4, counterexample to the claim as stated: the mongo realization's
default cutoff is `now()` itself (at the millisecond precision of BSON
datetimes), not `now() + 1 ms`. -/
theorem claim_c4_counterexample : mongoCutoffMs none 1000 ≠ 1000 + 1 := by
  decide

/-- C4, amended: with `at = None`, the sqlite and merkql realizations use
the cutoff `now() + 1 ms`; the mongo realization uses `now()` itself, at
millisecond precision — under which a version created at the current
millisecond is still visible, because the pipeline's comparison is
`createdAt ≤ cutoff`. -/
theorem claim_c4_default_cutoff :
    (∀ nowMs : Int, sqliteCutoffMs none nowMs = nowMs + 1) ∧
    (∀ nowMs : Int, merkqlCutoffMs none nowMs = nowMs + 1) ∧
    (∀ nowMs : Int, mongoCutoffMs none nowMs = nowMs) ∧
    ∀ (d : MongoDoc) (nowMs : Int) (tokens : List String),
      d.createdAtMs = nowMs → d.deleted = false →
      (∃ t ∈ tokens, t ∈ d.authorizedTokens) →
      mongoRead [d] d.id tokens none nowMs = some d := by
  refine ⟨fun _ => rfl, fun _ => rfl, fun _ => rfl, ?_⟩
  intro d nowMs tokens hms hdel ⟨t, htmem, htauth⟩
  have hmatch : mongoMatch [d] d.id tokens (mongoCutoffMs none nowMs) = [d] := by
    unfold mongoMatch
    rw [List.filter_cons]
    have hany : tokens.any (fun t => d.authorizedTokens.contains t) = true := by
      rw [List.any_eq_true]
      exact ⟨t, htmem, by simpa using htauth⟩
    simp [hany, hms, mongoCutoffMs]
    exact ⟨t, htmem, htauth⟩
  unfold mongoRead
  rw [hmatch]
  show Option.filter _ (mongoFirstByCreatedAt [d]) = some d
  rw [show mongoFirstByCreatedAt [d] = some d from rfl]
  simp [Option.filter, hdel]

/-- C4 witness: a single-document history created at millisecond 5 is
visible to a default-cutoff mongo read issued at millisecond 5. -/
theorem claim_c4_default_cutoff_witness :
    mongoRead [docA] "x" ["a"] none 5 = some docA :=
  claim_c4_default_cutoff.2.2.2 docA 5 ["a"] rfl rfl ⟨"a", by simp, by simp [docA]⟩

/-- Shape of `Option.filter` success. -/
theorem option_filter_some {α : Type} {f : α → Bool} {o : Option α} {a : α}
    (h : Option.filter f o = some a) : o = some a ∧ f a = true := by
  cases o with
  | none => cases h
  | some b =>
    by_cases hb : f b
    · simp [Option.filter, hb] at h
      subst h
      exact ⟨rfl, hb⟩
    · simp [Option.filter, hb] at h

/-- C5, counterexample to the claim as stated: the sqlite realization of
`read` applies no token filter — the only stored version of `x` carries
tokens `["a"]`, disjoint from the caller's `["b"]`, yet the read returns
it instead of absent. -/
theorem claim_c5_counterexample :
    sqliteRead [rowA] "x" ["b"] none 100 = some (rowToEnvelope rowA) ∧
    (¬ ∃ t ∈ ["b"], t ∈ rowA.authorized_tokens) ∧
    sqliteRead [rowA] "x" ["b"] none 100 ≠ none := by
  refine ⟨by decide, by decide, by decide⟩

/-- C5, amended: the mongo realization returns the selected version only
if it is not a tombstone and its `authorizedTokens` intersect the
caller's tokens (the `$in` filter applies during selection); the sqlite
(and merkql) realizations delegate token filtering to the auth contract
— the default `NoAuth` authorizes everything — and their `read` ignores
the tokens argument entirely, returning the selected version whenever
`deleted = false` even when the intersection is empty. -/
theorem claim_c5_read_token_filter :
    (∀ (docs : List MongoDoc) (id : String) (tokens : List String)
        (at? : Option Int) (nowMs : Int) (d : MongoDoc),
      mongoRead docs id tokens at? nowMs = some d →
        d.deleted = false ∧ (∃ t ∈ tokens, t ∈ d.authorizedTokens) ∧ d.id = id ∧
          d.createdAtMs ≤ mongoCutoffMs at? nowMs) ∧
    (∀ (table : List SqlRow) (id : String) (tokens tokens2 : List String)
        (at? : Option Int) (nowMs : Int),
      sqliteRead table id tokens at? nowMs = sqliteRead table id tokens2 at? nowMs) ∧
    ∀ (table : List SqlRow) (id : String) (tokens : List String)
        (at? : Option Int) (nowMs : Int) (i : Nat) (r : SqlRow),
      selectLatestIdx (sqliteCandidates table id (sqliteCutoffMs at? nowMs)) =
          some (i, r) →
      r.deleted = false →
      sqliteRead table id tokens at? nowMs = some (rowToEnvelope r) := by
  refine ⟨?_, fun _ _ _ _ _ _ => rfl, ?_⟩
  · intro docs id tokens at? nowMs d h
    obtain ⟨hsel, hdel⟩ := option_filter_some h
    have hmem := mongoFirstByCreatedAt_mem hsel
    obtain ⟨hmemd, hcond⟩ := List.mem_filter.mp hmem
    rw [Bool.and_eq_true, Bool.and_eq_true] at hcond
    obtain ⟨⟨hid, hcut⟩, htok⟩ := hcond
    obtain ⟨t, htmem, hticontains⟩ := List.any_eq_true.mp htok
    refine ⟨by simpa using hdel, ⟨t, htmem, by simpa using hticontains⟩,
      by simpa using hid, by simpa using hcut⟩
  · intro table id tokens at? nowMs i r hsel hdel
    unfold sqliteRead
    rw [hsel]
    simp [hdel]

/-- C5 witness: a successful mongo read at a concrete single-document
history indeed carries a non-empty token intersection. -/
theorem claim_c5_read_token_filter_witness :
    docA.deleted = false ∧ (∃ t ∈ ["a"], t ∈ docA.authorizedTokens) ∧
      docA.id = "x" ∧ docA.createdAtMs ≤ mongoCutoffMs none 5 :=
  claim_c5_read_token_filter.1 [docA] "x" ["a"] none 5 docA (by decide)


/-- Boolean conjunction over the pairs of an object. -/
theorem JObj.allPairs_eq_true_iff (m : JObj) (p : String → JValue → Bool) :
    m.allPairs p = true ↔ ∀ kv ∈ m.pairs, p kv.1 kv.2 = true := by
  match m with
  | .nil => simp [JObj.allPairs, JObj.pairs]
  | .cons k v t =>
    have ih := JObj.allPairs_eq_true_iff t p
    simp only [JObj.allPairs, JObj.pairs, Bool.and_eq_true, ih, List.mem_cons]
    constructor
    · rintro ⟨hkv, hrest⟩ kv hkv2
      rcases hkv2 with rfl | hmem
      · exact hkv
      · exact hrest kv hmem
    · intro h
      exact ⟨h (k, v) (Or.inl rfl), fun kv hmem => h kv (Or.inr hmem)⟩

/-- C6, counterexample to the claim as stated: in the merkql matcher an
unrecognized key is **not** skipped — the query `{"foo": 1}` matches no
record (here a record that the claim's skip-unknown-keys semantics,
`specMatches`, accepts), even though the empty query does match
everything. -/
theorem claim_c6_counterexample :
    specMatches (recordJson envA) (.cons "foo" (.int 1) .nil) = true ∧
    matcherMatches (recordJson envA) (.obj (.cons "foo" (.int 1) .nil)) = false ∧
    matcherMatches (recordJson envA) (.obj .nil) = true := by
  refine ⟨by decide, by decide, by decide⟩

/-- C6, amended: in the sqlite lowering (`build_where`) the empty object
produces no conditions, keys other than `"id"` and `"payload.<field>"`
are skipped, and each recognized key contributes exactly one equality
condition, conjoined with the others.  In the merkql matcher the empty
object matches every record and matching is conjunctive — a record
matches iff **every** key, read as a dot-path, resolves to an equal value
— so an unrecognized key is itself an equality predicate (over a path the
records do not carry) and rejects, rather than being skipped. -/
theorem claim_c6_query_semantics :
    buildWhere .nil = [] ∧
    (∀ (key : String) (v : JValue) (t : JObj),
      key ≠ "id" → stripPayloadDot key = none →
      buildWhere (.cons key v t) = buildWhere t) ∧
    (∀ (v : JValue) (t : JObj),
      buildWhere (.cons "id" v t) =
        (.idEq, match v with | .str s => s | other => other.toStringCompact) ::
          buildWhere t) ∧
    (∀ (key : String) (v : JValue) (t : JObj) (field : String),
      key ≠ "id" → stripPayloadDot key = some field →
      buildWhere (.cons key v t) =
        (.payloadFieldEq field,
          match v with | .str s => s | other => other.toStringCompact) ::
          buildWhere t) ∧
    (∀ record : JValue, matcherMatches record (.obj .nil) = true) ∧
    ∀ (record : JValue) (q : JObj),
      matcherMatches record (.obj q) = true ↔
        ∀ kv ∈ q.pairs, getPath record (splitDots kv.1) = some kv.2 := by
  refine ⟨rfl, ?_, ?_, ?_, fun _ => rfl, ?_⟩
  · intro key v t hkey hstrip
    simp only [buildWhere, if_neg hkey, hstrip]
  · intro v t
    simp [buildWhere]
  · intro key v t field hkey hstrip
    simp only [buildWhere, if_neg hkey, hstrip]
  · intro record q
    unfold matcherMatches
    rw [JObj.allPairs_eq_true_iff]
    constructor
    · intro h kv hmem
      have hb := h kv hmem
      cases hpath : getPath record (splitDots kv.1) with
      | none => rw [hpath] at hb; cases hb
      | some actual =>
        rw [hpath] at hb
        have hb' : (actual == kv.2) = true := hb
        exact congrArg some (beq_iff_eq.mp hb')
    · intro h kv hmem
      rw [h kv hmem]
      exact beq_iff_eq.mpr rfl

/-- C6 witness: an unknown key is skipped by the sqlite lowering, and the
merkql matcher accepts a record through a recognized payload key. -/
theorem claim_c6_query_semantics_witness :
    buildWhere (.cons "foo" (.int 1) JObj.nil) = buildWhere JObj.nil ∧
    matcherMatches (recordJson envA)
      (.obj (.cons "payload.name" (.str "alpha") .nil)) = true :=
  ⟨claim_c6_query_semantics.2.1 "foo" (.int 1) .nil (by decide) (by decide),
    (claim_c6_query_semantics.2.2.2.2.2 (recordJson envA)
      (.cons "payload.name" (.str "alpha") .nil)).mpr (by decide)⟩

/-- Removal with a visible version appends exactly the tombstone row:
same id, same payload, `created_at = now`, `deleted = true` — and the
**caller's** tokens, because `create` overwrites `authorized_tokens`. -/
theorem sqliteRemove_some_eq (table : List SqlRow) (id : String)
    (tokens : List String) (nowMs : Int) (fresh : String) (env : Envelope)
    (hid : id ≠ "") (hread : sqliteRead table id tokens none nowMs = some env) :
    sqliteRemove table id tokens nowMs fresh =
      (true, table ++ [⟨id, nowMs, true, tokens, env.payload⟩]) := by
  obtain ⟨i0, r0, hsel0, hdel0, henv, hid0, henum0, _⟩ := sqliteRead_some hread
  have hidenv : env.id = id := by rw [henv]; simpa [rowToEnvelope] using hid0
  unfold sqliteRemove
  rw [hread]
  show (true, (sqliteCreate table
    ⟨env.id, env.payload, DateTimeUtc.ofMs nowMs, true, env.authorized_tokens⟩
    tokens fresh).2) = _
  rw [sqliteCreate_eq _ _ _ _ (by show env.id ≠ ""; rw [hidenv]; exact hid)]
  show (true, table ++ [⟨env.id, (DateTimeUtc.ofMs nowMs).ms, true, tokens,
    env.payload⟩]) = _
  rw [hidenv, ofMs_ms]

/-- Default-cutoff reads issued at or after a tombstone's timestamp are
absent whenever no other version of the id is dated after it. -/
theorem read_after_tombstone (table : List SqlRow) (id : String)
    (tokens2 tombTokens : List String) (payload : Stash) (nowMs now2 : Int)
    (hbound : ∀ r ∈ table, r.id = id → r.created_at_ms ≤ nowMs)
    (hle : nowMs ≤ now2) :
    sqliteRead (table ++ [⟨id, nowMs, true, tombTokens, payload⟩]) id tokens2
      none now2 = none := by
  have hselect := tombstone_selected table id
    ⟨id, nowMs, true, tombTokens, payload⟩ rfl hbound (now2 + 1)
    (by show nowMs ≤ now2 + 1; omega)
  unfold sqliteRead
  rw [show sqliteCutoffMs none now2 = now2 + 1 from rfl, hselect]
  simp

/-- C7, counterexample to the claim as stated: the tombstone appended by
`remove` carries the **caller's** tokens, not the envelope's — removing
the only version of `x` (stored tokens `["a"]`) with caller tokens
`["b"]` appends a tombstone whose tokens are `["b"]`. -/
theorem claim_c7_counterexample :
    (sqliteRemove [rowA] "x" ["b"] 10 "f").2 =
      [rowA, ⟨"x", 10, true, ["b"], payloadW⟩] ∧
    rowA.authorized_tokens = ["a"] ∧
    (sqliteRemove [rowA] "x" ["b"] 10 "f").2 ≠
      [rowA, ⟨"x", 10, true, ["a"], payloadW⟩] := by
  refine ⟨by decide, by decide, by decide⟩

/-- C7, amended: `remove(id, tokens)` returns `false` and appends nothing
when the latest visible version is absent — in particular a second remove
of an already-removed id returns `false` — and otherwise appends exactly
one envelope with the same id, same payload, `deleted = true`,
`created_at = now`, and `authorized_tokens` equal to the caller's
`tokens` argument (which coincide with the envelope's tokens only when
the caller passes them), returning `true`. -/
theorem claim_c7_remove_semantics :
    (∀ (table : List SqlRow) (id : String) (tokens : List String)
        (nowMs : Int) (fresh : String),
      sqliteRead table id tokens none nowMs = none →
      sqliteRemove table id tokens nowMs fresh = (false, table)) ∧
    (∀ (table : List SqlRow) (id : String) (tokens : List String)
        (nowMs : Int) (fresh : String) (env : Envelope),
      id ≠ "" →
      sqliteRead table id tokens none nowMs = some env →
      sqliteRemove table id tokens nowMs fresh =
        (true, table ++ [⟨id, nowMs, true, tokens, env.payload⟩])) ∧
    ∀ (table : List SqlRow) (id : String) (tokens tokens2 : List String)
        (nowMs now2 : Int) (fresh fresh2 : String),
      id ≠ "" →
      (∀ r ∈ table, r.id = id → r.created_at_ms ≤ nowMs) →
      nowMs ≤ now2 →
      (sqliteRemove table id tokens nowMs fresh).1 = true →
      sqliteRemove (sqliteRemove table id tokens nowMs fresh).2 id tokens2 now2
          fresh2 =
        (false, (sqliteRemove table id tokens nowMs fresh).2) := by
  refine ⟨?_, ?_, ?_⟩
  · intro table id tokens nowMs fresh h
    unfold sqliteRemove
    rw [h]
  · intro table id tokens nowMs fresh env hid hread
    exact sqliteRemove_some_eq table id tokens nowMs fresh env hid hread
  · intro table id tokens tokens2 nowMs now2 fresh fresh2 hid hbound hle htrue
    cases hread : sqliteRead table id tokens none nowMs with
    | none =>
      unfold sqliteRemove at htrue
      rw [hread] at htrue
      cases htrue
    | some env =>
      rw [sqliteRemove_some_eq table id tokens nowMs fresh env hid hread]
      have hnone := read_after_tombstone table id tokens2 tokens env.payload
        nowMs now2 hbound hle
      unfold sqliteRemove
      rw [hnone]

/-- C7 witness: removing the only version of `x` appends exactly one
tombstone at `now`; removing again later returns `false` and appends
nothing. -/
theorem claim_c7_remove_semantics_witness :
    sqliteRemove [rowA] "x" ["b"] 10 "f" =
      (true, [rowA] ++ [⟨"x", 10, true, ["b"], (rowToEnvelope rowA).payload⟩]) ∧
    sqliteRemove (sqliteRemove [rowA] "x" ["b"] 10 "f").2 "x" ["b"] 11 "g" =
      (false, (sqliteRemove [rowA] "x" ["b"] 10 "f").2) :=
  ⟨claim_c7_remove_semantics.2.1 [rowA] "x" ["b"] 10 "f" (rowToEnvelope rowA)
      (by decide) (by decide),
    claim_c7_remove_semantics.2.2 [rowA] "x" ["b"] ["b"] 10 11 "f" "g"
      (by decide) (by decide) (by decide) (by decide)⟩

/-- Bounds guaranteed by a successful `as_i64`. -/
theorem asI64_bounds {v : JValue} {k : Int} (h : JValue.asI64 v = some k) :
    -(2 ^ 63) ≤ k ∧ k < 2 ^ 63 := by
  match v with
  | .null | .bool _ | .str _ | .arr _ | .obj _ => cases h
  | .int n =>
    have h' : (if -(2 ^ 63) ≤ n ∧ n < 2 ^ 63 then some n else none) = some k := h
    by_cases hb : -(2 ^ 63) ≤ n ∧ n < 2 ^ 63
    · rw [if_pos hb] at h'
      obtain rfl : n = k := Option.some.inj h'
      omega
    · rw [if_neg hb] at h'
      cases h'

/-- The `as usize` cast is the identity on non-negative `i64` values. -/
theorem usizeOfI64_nonneg {k : Int} (h0 : 0 ≤ k) (h1 : k < 2 ^ 64) :
    usizeOfI64 k = k.toNat := by
  unfold usizeOfI64
  rw [Int.emod_eq_of_lt h0 h1]

/-- SQLite `LIMIT k` with non-negative `k` caps the row count at `k`. -/
theorem applySqlLimit_length (rows : List JObj) (k : Int) (hk : 0 ≤ k) :
    ((applySqlLimit rows k).length : Int) ≤ k := by
  unfold applySqlLimit
  rw [if_neg (by omega)]
  have := List.length_take_le k.toNat rows
  omega

/-- C8, counterexample to the claim as stated: a numeric `limit` of `-1`
does not cap the result at `-1` stashes — the `i64 → usize` cast wraps a
negative limit to a huge bound, leaving the result uncapped, so a
matching one-record history still yields one stash. -/
theorem claim_c8_counterexample :
    (JObj.ofList [("limit", JValue.int (-1))]).get "limit" =
      some (JValue.int (-1)) ∧
    ¬ (((merkqlFindAll [envA] (.obj .nil)
        (JObj.ofList [("limit", JValue.int (-1))]) 100).length : Int) ≤ -1) := by
  refine ⟨by decide, by decide⟩

/-- C8, amended: when the argument stash holds a numeric `limit` whose
`as_i64` value `k` is non-negative, `find_all` returns at most `k`
stashes — in the merkql realization (`Vec::truncate` after predicate
evaluation) and in the sqlite realization (SQL `LIMIT`, applied after the
`WHERE` conditions); the limit never reaches the rendered query object.
A negative `k` leaves the result uncapped. -/
theorem claim_c8_limit_caps_results :
    (∀ (envelopes : List Envelope) (query : JValue) (args : Stash) (atMs : Int)
        (k : Int),
      (args.get "limit").bind JValue.asI64 = some k → 0 ≤ k →
      ((merkqlFindAll envelopes query args atMs).length : Int) ≤ k) ∧
    ∀ (table : List SqlRow) (queryObj : JObj) (args : Stash) (atMs : Int)
        (k : Int),
      (args.get "limit").bind JValue.asI64 = some k → 0 ≤ k →
      ((sqliteFindAll table queryObj args atMs).length : Int) ≤ k := by
  constructor
  · intro envelopes query args atMs k hlim hk
    have hbounds := asI64_bounds (v := (args.get "limit").getD .null) (k := k)
      (by cases hget : args.get "limit" with
          | none => rw [hget] at hlim; cases hlim
          | some v => rw [hget] at hlim; simpa using hlim)
    have hcast : usizeOfI64 k = k.toNat :=
      usizeOfI64_nonneg hk (by omega)
    simp only [merkqlFindAll, hlim, Option.map_some']
    have := List.length_take_le (usizeOfI64 k)
      (((merkqlScanLatest envelopes atMs).filter fun e =>
        matcherMatches (recordJson e) query).map envelopeToStash)
    omega
  · intro table queryObj args atMs k hlim hk
    simp only [sqliteFindAll, hlim]
    exact applySqlLimit_length _ k hk

/-- C8 witness: a limit of 1 on a two-record history caps both
realizations' result count at one stash. -/
theorem claim_c8_limit_caps_results_witness :
    ((merkqlFindAll [envA, envB] (.obj .nil)
      (JObj.ofList [("limit", JValue.int 1)]) 100).length : Int) ≤ 1 ∧
    ((sqliteFindAll [rowA, rowB] JObj.nil
      (JObj.ofList [("limit", JValue.int 1)]) 100).length : Int) ≤ 1 :=
  ⟨claim_c8_limit_caps_results.1 [envA, envB] (.obj .nil)
      (JObj.ofList [("limit", JValue.int 1)]) 100 1 (by decide) (by decide),
    claim_c8_limit_caps_results.2 [rowA, rowB] JObj.nil
      (JObj.ofList [("limit", JValue.int 1)]) 100 1 (by decide) (by decide)⟩

/-- C9, counterexample to the claim as stated: the matching order is not
singleton, vector, internal-singleton, internal-vector — for a field
matched by both a vector resolver and an internal-singleton resolver, the
schema builder picks the **internal-singleton** one, because its `if let`
chain tries internal-singleton before vector. -/
theorem claim_c9_counterexample :
    resolveObjectField cfgVecIS "x" =
      FieldBinding.internalSingleton ⟨"x", none, "q2", "p"⟩ ∧
    resolveObjectField cfgVecIS "x" ≠
      FieldBinding.vector ⟨"x", none, "q", "u"⟩ := by
  refine ⟨by decide, by decide⟩

/-- C9, amended: a non-scalar object field is matched against the
`RootConfig`'s resolver sequences in the order singleton,
**internal-singleton**, **vector**, internal-vector; the first matching
resolver wins, and when none matches the field resolves to null.  The
singleton kinds match the field name exactly; for the vector kinds a
dotted `field_name` also matches by its suffix after the last dot. -/
theorem claim_c9_resolver_selection :
    (∀ (cfg : RootConfig) (fieldName : String) (r : ResolverCfg),
      cfg.singleton_resolvers.find? (fun r => r.field_name == fieldName) = some r →
      resolveObjectField cfg fieldName = .singleton r) ∧
    (∀ (cfg : RootConfig) (fieldName : String) (r : ResolverCfg),
      cfg.singleton_resolvers.find? (fun r => r.field_name == fieldName) = none →
      cfg.internal_singleton_resolvers.find?
          (fun r => r.field_name == fieldName) = some r →
      resolveObjectField cfg fieldName = .internalSingleton r) ∧
    (∀ (cfg : RootConfig) (fieldName : String) (r : ResolverCfg),
      cfg.singleton_resolvers.find? (fun r => r.field_name == fieldName) = none →
      cfg.internal_singleton_resolvers.find?
          (fun r => r.field_name == fieldName) = none →
      cfg.vector_resolvers.find? (fun r => vectorFieldPred r fieldName) = some r →
      resolveObjectField cfg fieldName = .vector r) ∧
    (∀ (cfg : RootConfig) (fieldName : String) (r : ResolverCfg),
      cfg.singleton_resolvers.find? (fun r => r.field_name == fieldName) = none →
      cfg.internal_singleton_resolvers.find?
          (fun r => r.field_name == fieldName) = none →
      cfg.vector_resolvers.find? (fun r => vectorFieldPred r fieldName) = none →
      cfg.internal_vector_resolvers.find?
          (fun r => vectorFieldPred r fieldName) = some r →
      resolveObjectField cfg fieldName = .internalVector r) ∧
    (∀ (cfg : RootConfig) (fieldName : String),
      cfg.singleton_resolvers.find? (fun r => r.field_name == fieldName) = none →
      cfg.internal_singleton_resolvers.find?
          (fun r => r.field_name == fieldName) = none →
      cfg.vector_resolvers.find? (fun r => vectorFieldPred r fieldName) = none →
      cfg.internal_vector_resolvers.find?
          (fun r => vectorFieldPred r fieldName) = none →
      resolveObjectField cfg fieldName = .nullField) ∧
    (∀ (r : ResolverCfg) (fieldName : String),
      r.field_name = fieldName → vectorFieldPred r fieldName = true) ∧
    ∀ (r : ResolverCfg) (fieldName lead : String),
      rsplitOnceDot r.field_name = some (lead, fieldName) →
      vectorFieldPred r fieldName = true := by
  refine ⟨?_, ?_, ?_, ?_, ?_, ?_, ?_⟩
  · intro cfg fieldName r h1
    unfold resolveObjectField
    rw [h1]
  · intro cfg fieldName r h1 h2
    unfold resolveObjectField
    rw [h1, h2]
  · intro cfg fieldName r h1 h2 h3
    unfold resolveObjectField
    rw [h1, h2, h3]
  · intro cfg fieldName r h1 h2 h3 h4
    unfold resolveObjectField
    rw [h1, h2, h3, h4]
  · intro cfg fieldName h1 h2 h3 h4
    unfold resolveObjectField
    rw [h1, h2, h3, h4]
  · intro r fieldName h
    unfold vectorFieldPred
    simp [h]
  · intro r fieldName lead h
    unfold vectorFieldPred
    rw [h]
    simp

/-- C9 witness: the concrete config of the counterexample goes through
the internal-singleton branch, and the dotted name `hens.layReports`
matches the field `layReports` by suffix. -/
theorem claim_c9_resolver_selection_witness :
    resolveObjectField cfgVecIS "x" =
      FieldBinding.internalSingleton ⟨"x", none, "q2", "p"⟩ ∧
    vectorFieldPred ⟨"hens.layReports", none, "q", "u"⟩ "layReports" = true :=
  ⟨claim_c9_resolver_selection.2.1 cfgVecIS "x" ⟨"x", none, "q2", "p"⟩
      (by decide) (by decide),
    claim_c9_resolver_selection.2.2.2.2.2.2 ⟨"hens.layReports", none, "q", "u"⟩
      "layReports" "hens" (by decide)⟩

/-! ## Flat-JSON roundtrip (claim C10) -/

theorem parseHexDigit_hexDigitChar : ∀ n < 16, parseHexDigit (hexDigitChar n) = some n := by
  decide

theorem parseStringBody_escapeChar (c : Char) (tail : List Char) :
    parseStringBody (escapeChar c ++ tail) =
      (parseStringBody tail).map fun p => (c :: p.1, p.2) := by
  by_cases h1 : c = '"'
  · subst h1; simp [escapeChar, parseStringBody, escapedChar]
  · by_cases h2 : c = '\\'
    · subst h2; simp [escapeChar, parseStringBody, escapedChar]
    · by_cases h3 : c = '\x08'
      · subst h3; simp [escapeChar, parseStringBody, escapedChar]
      · by_cases h4 : c = '\t'
        · subst h4; simp [escapeChar, parseStringBody, escapedChar]
        · by_cases h5 : c = '\n'
          · subst h5; simp [escapeChar, parseStringBody, escapedChar]
          · by_cases h6 : c = '\x0c'
            · subst h6; simp [escapeChar, parseStringBody, escapedChar]
            · by_cases h7 : c = '\r'
              · subst h7; simp [escapeChar, parseStringBody, escapedChar]
              · by_cases h8 : c.toNat < 0x20
                · rw [show escapeChar c = ['\\', 'u', '0', '0',
                      hexDigitChar (c.toNat / 16), hexDigitChar (c.toNat % 16)] by
                    simp [escapeChar, h1, h2, h3, h4, h5, h6, h7, h8]]
                  have hd1 := parseHexDigit_hexDigitChar (c.toNat / 16) (by omega)
                  have hd2 := parseHexDigit_hexDigitChar (c.toNat % 16) (by omega)
                  have h0 : parseHexDigit '0' = some 0 := rfl
                  have hval : 0 * 4096 + 0 * 256 +
                      c.toNat / 16 * 16 + c.toNat % 16 = c.toNat := by omega
                  simp only [List.cons_append, parseStringBody, h0, hd1, hd2, hval]
                  rw [if_pos (Or.inl (by omega)), Char.ofNat_toNat]
                  rfl
                · rw [show escapeChar c = [c] by
                    simp [escapeChar, h1, h2, h3, h4, h5, h6, h7, h8]]
                  simp [parseStringBody, h1, h2, h8]

theorem parseStringBody_escape (l : List Char) (rest : List Char) :
    parseStringBody ((l.map escapeChar).flatten ++ '"' :: rest) = some (l, rest) := by
  induction l with
  | nil => simp [parseStringBody]
  | cons c l ih =>
    rw [List.map_cons, List.flatten_cons, List.append_assoc,
      parseStringBody_escapeChar, ih]
    rfl

theorem renderItemsAux_length (ts : List String) :
    ts.length ≤ (renderItemsAux ts).length := by
  match ts with
  | [] => simp [renderItemsAux]
  | [t] => simp [renderItemsAux, renderString]
  | t :: t2 :: rest =>
    have ih := renderItemsAux_length (t2 :: rest)
    simp only [renderItemsAux, renderString, List.length_cons, List.length_append]
    simp at ih ⊢
    omega

theorem parseStringItems_render (ts : List String) :
    ∀ (rest : List Char) (fuel : Nat), ts ≠ [] → ts.length ≤ fuel →
    parseStringItems fuel (renderItemsAux ts ++ ']' :: rest) = some (ts, rest) := by
  induction ts with
  | nil => intro rest fuel h _; exact absurd rfl h
  | cons t ts ih =>
    intro rest fuel _ hfuel
    cases fuel with
    | zero => simp at hfuel
    | succ f =>
      cases ts with
      | nil =>
        show parseStringItems (f + 1)
          (('"' :: (escapeString t ++ ['"'])) ++ ']' :: rest) = some ([t], rest)
        simp only [parseStringItems, List.cons_append, List.append_assoc,
          List.nil_append]
        rw [show skipWs ('"' :: (escapeString t ++ '"' :: ']' :: rest)) =
          '"' :: (escapeString t ++ '"' :: ']' :: rest) by simp [skipWs]]
        simp only []
        rw [show escapeString t = (t.data.map escapeChar).flatten from rfl,
          parseStringBody_escape]
        simp only []
        rw [show skipWs (']' :: rest) = ']' :: rest by simp [skipWs]]
        rfl
      | cons t2 ts2 =>
        show parseStringItems (f + 1)
          ((('"' :: (escapeString t ++ ['"'])) ++ ',' :: renderItemsAux (t2 :: ts2))
            ++ ']' :: rest) = some (t :: t2 :: ts2, rest)
        simp only [parseStringItems, List.cons_append, List.append_assoc,
          List.nil_append]
        rw [show skipWs ('"' :: (escapeString t ++ '"' :: ',' ::
            (renderItemsAux (t2 :: ts2) ++ ']' :: rest))) =
          '"' :: (escapeString t ++ '"' :: ',' ::
            (renderItemsAux (t2 :: ts2) ++ ']' :: rest)) by simp [skipWs]]
        simp only []
        rw [show escapeString t = (t.data.map escapeChar).flatten from rfl,
          parseStringBody_escape]
        simp only []
        rw [show skipWs (',' :: (renderItemsAux (t2 :: ts2) ++ ']' :: rest)) =
          ',' :: (renderItemsAux (t2 :: ts2) ++ ']' :: rest) by simp [skipWs]]
        simp only []
        rw [ih rest f (by simp) (by simpa using hfuel)]
        rfl

theorem parseStringList_render (ts : List String) :
    parseStringList (renderStringList ts) = some ts := by
  cases ts with
  | nil => decide
  | cons t ts' =>
    obtain ⟨tail0, htail⟩ : ∃ tail0, renderItemsAux (t :: ts') = '"' :: tail0 := by
      cases ts' <;> exact ⟨_, rfl⟩
    show parseStringList ⟨'[' :: (renderItemsAux (t :: ts') ++ [']'])⟩ =
      some (t :: ts')
    simp only [parseStringList]
    rw [show skipWs ('[' :: (renderItemsAux (t :: ts') ++ [']'])) =
      '[' :: (renderItemsAux (t :: ts') ++ [']']) by simp [skipWs]]
    show parseListTail (skipWs (renderItemsAux (t :: ts') ++ [']'])) =
      some (t :: ts')
    rw [show skipWs (renderItemsAux (t :: ts') ++ [']']) =
      renderItemsAux (t :: ts') ++ [']'] by rw [htail]; simp [skipWs]]
    rw [htail, List.cons_append]
    rw [show parseListTail ('"' :: (tail0 ++ [']'])) =
      (match parseStringItems (('"' :: (tail0 ++ [']'])).length + 1)
          ('"' :: (tail0 ++ [']'])) with
        | some (ts, rem) => if skipWs rem = [] then some ts else none
        | none => none) from rfl]
    rw [show ('"' :: (tail0 ++ [']']) : List Char) =
      renderItemsAux (t :: ts') ++ ']' :: [] by rw [htail]; simp]
    have hlen : (t :: ts').length ≤
        (renderItemsAux (t :: ts') ++ ']' :: []).length + 1 := by
      have h1 := renderItemsAux_length (t :: ts')
      simp at h1 ⊢
      omega
    rw [parseStringItems_render (t :: ts') [] _ (by simp) hlen]
    rfl

theorem JObj.keys_eq_pairs_map (m : JObj) : m.keys = m.pairs.map Prod.fst := by
  match m with
  | .nil => rfl
  | .cons k v t =>
    have ih := JObj.keys_eq_pairs_map t
    simp [JObj.keys, JObj.pairs, ih]

theorem JObj.append_nil (m : JObj) : m.append .nil = m := by
  match m with
  | .nil => rfl
  | .cons k v t =>
    have ih := JObj.append_nil t
    simp [JObj.append, ih]

theorem JObj.append_assoc (a b c : JObj) :
    (a.append b).append c = a.append (b.append c) := by
  match a with
  | .nil => rfl
  | .cons k v t =>
    have ih := JObj.append_assoc t b c
    simp [JObj.append, ih]

theorem JObj.pairs_append (a b : JObj) :
    (a.append b).pairs = a.pairs ++ b.pairs := by
  match a with
  | .nil => rfl
  | .cons k v t =>
    have ih := JObj.pairs_append t b
    simp [JObj.append, JObj.pairs, ih]

theorem JObj.keys_append (a b : JObj) :
    (a.append b).keys = a.keys ++ b.keys := by
  match a with
  | .nil => rfl
  | .cons k v t =>
    have ih := JObj.keys_append t b
    simp [JObj.append, JObj.keys, ih]

theorem JObj.pairs_ofList (l : List (String × JValue)) :
    (JObj.ofList l).pairs = l := by
  induction l with
  | nil => rfl
  | cons kv t ih => simp [JObj.ofList, JObj.pairs, ih]

theorem JObj.ofList_pairs (m : JObj) : JObj.ofList m.pairs = m := by
  match m with
  | .nil => rfl
  | .cons k v t =>
    have ih := JObj.ofList_pairs t
    simp [JObj.ofList, JObj.pairs, ih]

theorem JObj.insert_fresh (m : JObj) (k : String) (v : JValue)
    (h : k ∉ m.keys) : m.insert k v = m.append (.cons k v .nil) := by
  match m with
  | .nil => rfl
  | .cons k2 w t =>
    have hk2 : ¬ k2 = k := by
      intro h2
      exact h (by simp [JObj.keys, h2])
    have ih := JObj.insert_fresh t k v (by
      intro h2
      exact h (by simp [JObj.keys, h2]))
    simp [JObj.insert, JObj.append, hk2, ih]

theorem foldl_insert_fresh (ps : List (String × JValue)) : ∀ (m : JObj),
    (∀ kv ∈ ps, kv.1 ∉ m.keys) → (ps.map Prod.fst).Nodup →
    ps.foldl (fun acc p => acc.insert p.1 p.2) m = m.append (JObj.ofList ps) := by
  induction ps with
  | nil => intro m _ _; exact (JObj.append_nil m).symm
  | cons kv ps ih =>
    intro m hdisj hnodup
    simp only [List.foldl_cons]
    rw [JObj.insert_fresh m kv.1 kv.2 (hdisj kv (by simp))]
    rw [ih (m.append (.cons kv.1 kv.2 .nil)) ?fresh ?nodup]
    · rw [JObj.append_assoc]
      rfl
    case fresh =>
      intro p hp
      rw [JObj.keys_append]
      simp only [List.mem_append, not_or]
      refine ⟨fun hmem => hdisj p (by simp [hp]) hmem, ?_⟩
      simp only [JObj.keys, List.mem_cons, List.not_mem_nil, or_false]
      intro heq
      rw [List.map_cons, List.nodup_cons] at hnodup
      exact hnodup.1 (heq ▸ List.mem_map_of_mem Prod.fst hp)
    case nodup =>
      rw [List.map_cons, List.nodup_cons] at hnodup
      exact hnodup.2

theorem foldl_skip_underscore (ps : List (String × JValue)) (acc : JObj)
    (h : ∀ kv ∈ ps, startsWithUnderscore kv.1 = true) :
    ps.foldl
      (fun acc p => if startsWithUnderscore p.1 then acc else acc.insert p.1 p.2)
      acc = acc := by
  induction ps generalizing acc with
  | nil => rfl
  | cons kv ps ih =>
    simp only [List.foldl_cons, h kv (by simp), if_true]
    exact ih acc (fun p hp => h p (by simp [hp]))

theorem foldl_keep_nonunderscore (ps : List (String × JValue)) (acc : JObj)
    (h : ∀ kv ∈ ps, startsWithUnderscore kv.1 = false) :
    ps.foldl
      (fun acc p => if startsWithUnderscore p.1 then acc else acc.insert p.1 p.2)
      acc = ps.foldl (fun acc p => acc.insert p.1 p.2) acc := by
  induction ps generalizing acc with
  | nil => rfl
  | cons kv ps ih =>
    simp only [List.foldl_cons, h kv (by simp), if_false, Bool.false_eq_true]
    exact ih _ (fun p hp => h p (by simp [hp]))

theorem envelopeToFlatJson_eq (e : Envelope)
    (hkeys : ∀ k ∈ e.payload.keys, startsWithUnderscore k = false)
    (hnodup : e.payload.keys.Nodup) :
    envelopeToFlatJson e =
      .obj ((flatMeta e).append (JObj.ofList e.payload.pairs)) := by
  have hnodup' : (e.payload.pairs.map Prod.fst).Nodup := by
    rw [← JObj.keys_eq_pairs_map]; exact hnodup
  have hdisj : ∀ kv ∈ e.payload.pairs, kv.1 ∉ (flatMeta e).keys := by
    intro kv hkv hmem
    have hf := hkeys kv.1 (by
      rw [JObj.keys_eq_pairs_map]; exact List.mem_map_of_mem _ hkv)
    rw [show (flatMeta e).keys = ["_id", "_created_at", "_deleted", "_tokens"]
      from rfl] at hmem
    simp only [List.mem_cons, List.not_mem_nil, or_false] at hmem
    rcases hmem with h | h | h | h <;> rw [h] at hf <;> exact absurd hf (by decide)
  show JValue.obj
      (e.payload.pairs.foldl (fun acc p => acc.insert p.1 p.2) (flatMeta e)) = _
  rw [foldl_insert_fresh e.payload.pairs (flatMeta e) hdisj hnodup']

/-- C10: for every envelope whose payload keys do not start with an
underscore (and are distinct) and whose timestamp is representable at
millisecond precision, `flat_json_to_envelope (envelope_to_flat_json e)`
returns `Some` of an envelope equal to `e` in `id`, `payload`, `deleted`
and `authorized_tokens`, with `created_at` equal to `e.created_at`
truncated to the millisecond. -/
theorem claim_c10_flat_roundtrip (e : Envelope)
    (hkeys : ∀ k ∈ e.payload.keys, startsWithUnderscore k = false)
    (hnodup : e.payload.keys.Nodup)
    (hrange : chronoMsMin ≤ e.created_at.ms ∧ e.created_at.ms ≤ chronoMsMax) :
    flatJsonToEnvelope (envelopeToFlatJson e) =
      some { e with created_at := DateTimeUtc.ofMs e.created_at.ms } := by
  rw [envelopeToFlatJson_eq e hkeys hnodup]
  have hkeys' : ∀ kv ∈ e.payload.pairs, startsWithUnderscore kv.1 = false := by
    intro kv hkv
    exact hkeys kv.1 (by rw [JObj.keys_eq_pairs_map]; exact List.mem_map_of_mem _ hkv)
  have hnodup' : (e.payload.pairs.map Prod.fst).Nodup := by
    rw [← JObj.keys_eq_pairs_map]; exact hnodup
  have hb : -(2 ^ 63) ≤ e.created_at.ms ∧ e.created_at.ms < 2 ^ 63 := by
    unfold chronoMsMin chronoMsMax at hrange
    omega
  simp only [flatJsonToEnvelope]
  rw [show ((flatMeta e).append (JObj.ofList e.payload.pairs)).get "_id" =
    some (.str e.id) from rfl]
  rw [show ((flatMeta e).append (JObj.ofList e.payload.pairs)).get "_created_at" =
    some (.int e.created_at.ms) from rfl]
  rw [show ((flatMeta e).append (JObj.ofList e.payload.pairs)).get "_deleted" =
    some (.bool e.deleted) from rfl]
  rw [show ((flatMeta e).append (JObj.ofList e.payload.pairs)).get "_tokens" =
    some (.str (renderStringList e.authorized_tokens)) from rfl]
  rw [show (some (JValue.str e.id)).bind JValue.asStr = some e.id from rfl]
  rw [show (some (JValue.int e.created_at.ms)).bind JValue.asI64 =
    JValue.asI64 (.int e.created_at.ms) from rfl]
  rw [show JValue.asI64 (.int e.created_at.ms) = some e.created_at.ms by
    unfold JValue.asI64
    exact if_pos hb]
  simp only []
  rw [show (some (JValue.str (renderStringList e.authorized_tokens))).bind
    JValue.asStr = some (renderStringList e.authorized_tokens) from rfl]
  rw [show (some (renderStringList e.authorized_tokens)).getD "[]" =
    renderStringList e.authorized_tokens from rfl]
  rw [parseStringList_render]
  rw [show timestampMillisOpt e.created_at.ms =
    some (DateTimeUtc.ofMs e.created_at.ms) by
    unfold timestampMillisOpt
    exact if_pos hrange]
  simp only []
  rw [JObj.pairs_append, List.foldl_append]
  rw [show (flatMeta e).pairs.foldl
    (fun acc p => if startsWithUnderscore p.1 then acc else acc.insert p.1 p.2)
    JObj.nil = JObj.nil from rfl]
  rw [JObj.pairs_ofList]
  rw [foldl_keep_nonunderscore e.payload.pairs JObj.nil hkeys']
  rw [foldl_insert_fresh e.payload.pairs JObj.nil (by simp [JObj.keys]) hnodup']
  rw [show (JObj.nil.append (JObj.ofList e.payload.pairs)) =
    JObj.ofList e.payload.pairs from rfl]
  rw [JObj.ofList_pairs]
  rfl

/-- C10 witness: a concrete envelope with a sub-millisecond timestamp
(nanosecond 100000005, i.e. millisecond 100) and tokens that need JSON
escaping round-trips with the timestamp truncated to millisecond 100. -/
theorem claim_c10_flat_roundtrip_witness :
    flatJsonToEnvelope (envelopeToFlatJson envSubMs) =
      some { envSubMs with created_at := DateTimeUtc.ofMs envSubMs.created_at.ms } :=
  claim_c10_flat_roundtrip envSubMs (by decide) (by decide) (by decide)
